import Mathlib

/-!
A shallow embedding of kalamine's `xkb_manager.py` (the layout registration
core) together with proofs about it.

The Python source manipulates text files (`xkb/symbols/<locale>`) and XML
metadata trees (`xkb/rules/{base,evdev}.xml`).  The embedding models:

* strings as Lean `String` (a list of characters, matching Python's
  code-point view of `str`), with Python string primitives re-implemented
  on `String.data` so that they are easy to reason about;
* a symbols file as its full text content (a `String`);
* a parsed rules XML file as a `RegistryTree` (layout list, each layout a
  locale name plus a variant list); the on-disk shard is a `ShardFile`
  carrying both the raw bytes and the parsed tree;
* the pending-change index as an association list from locale to an
  association list from variant name to `Option KeyboardLayout`
  (`none` models a removal tombstone, mirroring the Python `None`).

Python's case conversion is modelled by `Char.toUpper`/`Char.toLower`,
which agree with Python on ASCII (the concrete inputs used in witnesses and
counterexamples are ASCII).
-/

/-- Python `str` whitespace for `str.rstrip()` (ASCII part; the concrete
strings in this development contain no other whitespace). -/
def pyIsSpace (c : Char) : Bool :=
  c = ' ' || c = '\t' || c = '\n' || c = '\r' || c = '\x0b' || c = '\x0c'

/-- Python `s.rstrip()`. -/
def pyRstrip (s : String) : String :=
  ⟨(s.data.reverse.dropWhile pyIsSpace).reverse⟩

/-- Python `s.endswith(suffix)`. -/
def pyEndsWith (s suffix : String) : Bool :=
  decide (suffix.data <:+ s.data)

/-- Python `s.startswith(p)`. -/
def pyStartsWith (s p : String) : Bool :=
  decide (p.data <+: s.data)

/-- Python `s[n:]`. -/
def pyDrop (s : String) (n : Nat) : String :=
  ⟨s.data.drop n⟩

/-- Python `s[:-n]` (for `n > 0`; empty result when `n ≥ len(s)`). -/
def pyDropRight (s : String) (n : Nat) : String :=
  ⟨s.data.take (s.data.length - n)⟩

/-- Python `s.lower()` (ASCII). -/
def pyLower (s : String) : String :=
  ⟨s.data.map Char.toLower⟩

/-- Python `s.upper()` (ASCII). -/
def pyUpper (s : String) : String :=
  ⟨s.data.map Char.toUpper⟩

/-- Concatenation of a list of strings. -/
def strJoin : List String → String
  | [] => ""
  | s :: rest => s ++ strJoin rest

/-- One step of splitting a character list into lines: lines retain their
terminating newline, a final fragment without a newline is kept as-is.
This matches iterating over a Python text file handle line by line. -/
def lineSplitStep (c : Char) (acc : List (List Char)) : List (List Char) :=
  match acc with
  | [] => [[c]]
  | l :: ls => if c = '\n' then [c] :: l :: ls else (c :: l) :: ls

/-- Split a character list into newline-terminated lines (the final line may
be unterminated).  `lineSplit "a\nb"` is `["a\n", "b"]` as character lists. -/
def lineSplit (l : List Char) : List (List Char) :=
  l.foldr lineSplitStep []

/-- Split a string into lines, keeping terminators, as Python file iteration
does. -/
def lineSplitS (s : String) : List String :=
  (lineSplit s.data).map String.mk

-- ---------------------------------------------------------------------------
-- Marker protocol (xkb_manager.py lines 213-230)
-- ---------------------------------------------------------------------------

/-- `LEGACY_MARK` (xkb_manager.py line 213). -/
def LEGACY_MARK : String × String :=
  ("// LAFAYETTE::BEGIN\n", "// LAFAYETTE::END\n")

/-- `get_symbol_mark(name)` (xkb_manager.py lines 216-220): the begin/end
marker pair for a variant name. -/
def get_symbol_mark (name : String) : String × String :=
  ("// KALAMINE::" ++ pyUpper name ++ "::BEGIN\n",
   "// KALAMINE::" ++ pyUpper name ++ "::END\n")

/-- `is_new_symbol_mark(line)` (xkb_manager.py lines 223-230).  Returns the
(lower-cased) variant name when the line is recognized as a begin marker.
Note the faithful final branch: any line ending in `::BEGIN` that does not
start with `// KALAMINE::` yields the fixed name `"lafayette"`. -/
def is_new_symbol_mark (line : String) : Option String :=
  if !pyEndsWith line "::BEGIN\n" then none
  else if pyStartsWith line "// KALAMINE::" then
    some (pyLower (pyDropRight (pyDrop line 13) 8))
  else
    some "lafayette"

-- ---------------------------------------------------------------------------
-- update_symbols_locale (xkb_manager.py lines 233-285)
-- ---------------------------------------------------------------------------

/-- The fields of `KeyboardLayout` that the registration core reads:
`layout.meta["description"]` and `layout.xkb_symbols`. -/
structure KeyboardLayout where
  description : String
  xkb_symbols : String
deriving Repr, DecidableEq

/-- A per-locale variant mapping: Python `Variant = Dict[str, Optional[KeyboardLayout]]`,
modelled as an insertion-ordered association list (`none` = removal). -/
abbrev VariantMap := List (String × Option KeyboardLayout)

/-- The in-memory index: Python `Index = Dict[str, Variant]`. -/
abbrev KbIndex := List (String × VariantMap)

/-- The keys of a variant mapping (Python `named_layouts.keys()`). -/
def variantKeys (v : VariantMap) : List String := v.map Prod.fst

/-- The mutable state of the scanning loop in `update_symbols_locale`
(xkb_manager.py lines 236-241): accumulated output `text`, the
`modified_text`, `between_marks` flags and the current `closing_mark`. -/
structure ScanState where
  text : String
  modified : Bool
  between : Bool
  closing : String
deriving Repr, DecidableEq

/-- The initial scan state (xkb_manager.py lines 236-241). -/
def initScan : ScanState := ⟨"", false, false, ""⟩

/-- The `elif` chain of the scan loop for a line that is not a truthy begin
marker (xkb_manager.py lines 252-259). -/
def scanRest (st : ScanState) (line : String) : ScanState :=
  if pyEndsWith line "::END\n" then
    if st.between && pyStartsWith line st.closing then
      { st with between := false, closing := "" }
    else { st with text := st.text ++ line }
  else if !st.between then { st with text := st.text ++ line }
  else st

/-- One iteration of the scan loop of `update_symbols_locale`
(xkb_manager.py lines 242-259).  A begin marker with a truthy name that is a
key of the mapping starts dropping a block (and right-strips the output
accumulated so far); a truthy begin marker with a foreign name is passed
through; anything else goes through the `elif` chain. -/
def scanLine (keys : List String) (st : ScanState) (line : String) : ScanState :=
  match is_new_symbol_mark line with
  | some name =>
    if name ≠ "" then
      if keys.contains name then
        { text := pyRstrip st.text, modified := true, between := true,
          closing := pyDropRight line 6 ++ "END\n" }
      else { st with text := st.text ++ line }
    else scanRest st line
  | none => scanRest st line

/-- The whole scanning pass of `update_symbols_locale` over a list of lines. -/
def scanList (keys : List String) (st : ScanState) (lines : List String) : ScanState :=
  lines.foldl (scanLine keys) st

/-- Python `re.sub(r"^//#.*\n", "", body, flags=re.MULTILINE)`
(xkb_manager.py lines 278-280): every newline-terminated line starting with
`//#` is removed (a final unterminated line is never matched). -/
def stripHashLines (body : String) : String :=
  strJoin ((lineSplitS body).filter
    (fun l => !(pyStartsWith l "//#" && pyEndsWith l "\n")))

/-- The block body written for one installed layout
(xkb_manager.py lines 277-282): comment lines dropped, right-stripped, one
trailing newline. -/
def processedBody (layout : KeyboardLayout) : String :=
  pyRstrip (stripHashLines layout.xkb_symbols) ++ "\n"

/-- The text appended after the scan for the installed layouts of a mapping,
in insertion order (xkb_manager.py lines 268-283): a blank line, the begin
marker, the processed body and the end marker per installed layout;
tombstones contribute nothing. -/
def appendBlockStep (acc : String) (p : String × Option KeyboardLayout) : String :=
  match p.2 with
  | none => acc
  | some layout =>
      acc ++ "\n" ++ (get_symbol_mark p.1).1 ++ processedBody layout
          ++ (get_symbol_mark p.1).2

def appendBlocks (variants : VariantMap) : String :=
  variants.foldl appendBlockStep ""

/-- `update_symbols_locale(path, named_layouts)` (xkb_manager.py lines
233-285) as a pure function from on-disk content to on-disk content: scan
the lines, rewrite the file right-stripped with one trailing newline if the
scan dropped anything, then append the new blocks at the end. -/
def update_symbols_locale (content : String) (variants : VariantMap) : String :=
  let final := scanList (variantKeys variants) initScan (lineSplitS content)
  (if final.modified then pyRstrip final.text ++ "\n" else content)
    ++ appendBlocks variants

-- ---------------------------------------------------------------------------
-- update_symbols (xkb_manager.py lines 288-303) over a symbols store
-- ---------------------------------------------------------------------------

/-- The `xkb/symbols/` directory: locale name to file content, `none` when
the file does not exist. -/
abbrev SymStore := String → Option String

/-- `update_symbols(xkb_root, kb_index)` (xkb_manager.py lines 288-303):
for each locale of the index, the file is created with content
`"// Generated by Kalamine"` (no trailing newline) when missing, then
rewritten by `update_symbols_locale`. -/
def updateSymStep (st : SymStore) (p : String × VariantMap) : SymStore :=
  let content := (st p.1).getD "// Generated by Kalamine"
  fun l => if l = p.1 then some (update_symbols_locale content p.2) else st l

def update_symbols (store : SymStore) (idx : KbIndex) : SymStore :=
  idx.foldl updateSymStep store

/-- `list_symbols`-style collection of the begin-marker names of a file
(the names under which blocks are registered). -/
def symbolMarkNames (content : String) : List String :=
  (lineSplitS content).filterMap is_new_symbol_mark

-- ---------------------------------------------------------------------------
-- XKB/rules helpers (xkb_manager.py lines 333-382)
-- ---------------------------------------------------------------------------

/-- A `variant` node of the rules XML: `configItem/name`,
`configItem/description`, and the (obsolete) `type` attribute. -/
structure RVariant where
  name : String
  description : String
  vtype : Option String := none
deriving Repr, DecidableEq

/-- A `layout` node of the rules XML: `configItem/name` (the locale) and its
`variantList`. -/
structure RLayout where
  locale : String
  variants : List RVariant
deriving Repr, DecidableEq

/-- A parsed rules XML document: the `layoutList` content. -/
structure RegistryTree where
  layouts : List RLayout
deriving Repr, DecidableEq

/-- An on-disk rules shard: the raw bytes together with their parse (with
blank text nodes removed, as `etree.parse(..., remove_blank_text=True)`
produces). -/
structure ShardFile where
  raw : String
  tree : RegistryTree
deriving Repr, DecidableEq

/-- `get_rules_locale(tree, locale)` (xkb_manager.py lines 333-340), tree
part: when the number of `layout` nodes named `locale` differs from 1, a
fresh `layout` node with an empty `variantList` is appended to the
`layoutList`.  The node subsequently operated on is the first match. -/
def get_rules_locale (t : RegistryTree) (locale : String) : RegistryTree :=
  if (t.layouts.filter (fun l => l.locale = locale)).length ≠ 1 then
    ⟨t.layouts ++ [⟨locale, []⟩]⟩
  else t

/-- `remove_rules_variant(variant_list, name)` (xkb_manager.py lines
343-346): every variant node with this name is removed. -/
def remove_rules_variant (vl : List RVariant) (name : String) : List RVariant :=
  vl.filter (fun v => !(v.name = name))

/-- `add_rules_variant(variant_list, name, description)` (xkb_manager.py
lines 349-352): a fresh variant node (no `type` attribute) is appended. -/
def add_rules_variant (vl : List RVariant) (name description : String) :
    List RVariant :=
  vl ++ [⟨name, description, none⟩]

/-- The body of the inner loop of `update_rules` for one `(name, layout)`
entry (xkb_manager.py lines 370-374): remove, then re-add when installing. -/
def applyVariantOp (vl : List RVariant) (op : String × Option KeyboardLayout) :
    List RVariant :=
  let vl' := remove_rules_variant vl op.1
  match op.2 with
  | none => vl'
  | some layout => add_rules_variant vl' op.1 layout.description

/-- All variant operations of one locale applied in mapping order. -/
def applyVariantOps (vl : List RVariant) (ops : VariantMap) : List RVariant :=
  ops.foldl applyVariantOp vl

/-- Replace the variant list of the first `layout` node with the given
locale (the node `get_rules_locale` returns a reference to). -/
def modifyFirstLayout (ls : List RLayout) (locale : String)
    (f : List RVariant → List RVariant) : List RLayout :=
  match ls with
  | [] => []
  | l :: rest =>
    if l.locale = locale then { l with variants := f l.variants } :: rest
    else l :: modifyFirstLayout rest locale f

/-- Processing of one index locale by `update_rules` (xkb_manager.py lines
366-374): locate-or-create the layout node, then apply all variant
operations to its variant list. -/
def update_rules_locale (t : RegistryTree) (locale : String) (ops : VariantMap) :
    RegistryTree :=
  let t := get_rules_locale t locale
  ⟨modifyFirstLayout t.layouts locale (fun vl => applyVariantOps vl ops)⟩

/-- The tree mutation `update_rules` performs on one shard for the whole
index (xkb_manager.py lines 366-374). -/
def update_rules_tree (t : RegistryTree) (idx : KbIndex) : RegistryTree :=
  idx.foldl (fun t p => update_rules_locale t p.1 p.2) t

/-- Serialization of one variant node as pretty-printed by lxml. -/
def serializeVariant (v : RVariant) : String :=
  "    <variant"
    ++ (match v.vtype with
        | none => ""
        | some t => " type=\x22" ++ t ++ "\x22")
    ++ ">\n      <configItem>\n        <name>" ++ v.name
    ++ "</name>\n        <description>" ++ v.description
    ++ "</description>\n      </configItem>\n    </variant>\n"

/-- Serialization of one layout node as pretty-printed by lxml. -/
def serializeLayout (l : RLayout) : String :=
  "  <layout>\n    <configItem>\n      <name>" ++ l.locale
    ++ "</name>\n    </configItem>\n    <variantList"
    ++ (if l.variants.isEmpty then "/>\n"
        else ">\n" ++ strJoin (l.variants.map serializeVariant)
             ++ "    </variantList>\n")
    ++ "  </layout>\n"

/-- Models `tree.write(filepath, pretty_print=True, xml_declaration=True,
encoding="utf-8")` (xkb_manager.py lines 376-378) for a registry document
without DTD or comment nodes: lxml's single-quoted XML declaration followed
by the two-space pretty-printed element tree. -/
def serializeRegistry (t : RegistryTree) : String :=
  "<?xml version='1.0' encoding='UTF-8'?>\n<xkbConfigRegistry>\n"
    ++ (if t.layouts.isEmpty then "  <layoutList/>\n"
        else "  <layoutList>\n" ++ strJoin (t.layouts.map serializeLayout)
             ++ "  </layoutList>\n")
    ++ "</xkbConfigRegistry>\n"

/-- `update_rules` on one shard file (xkb_manager.py lines 358-378): parse,
mutate the tree for the whole index, and unconditionally write the tree
back pretty-printed.  Missing files are skipped by the caller. -/
def update_rules_shard (sf : ShardFile) (idx : KbIndex) : ShardFile :=
  let t := update_rules_tree sf.tree idx
  ⟨serializeRegistry t, t⟩

-- ---------------------------------------------------------------------------
-- On-disk state and XKBManager.update / XKBManager.clean
-- ---------------------------------------------------------------------------

/-- The on-disk state the registration core touches: the two rule shards
(`rules/base.xml`, `rules/evdev.xml`; `none` = file missing) and the
symbols directory. -/
structure DiskState where
  base : Option ShardFile
  evdev : Option ShardFile
  symbols : SymStore

/-- `update_rules(xkb_root, kb_index)` (xkb_manager.py lines 355-382) on the
disk state: each existing shard is rewritten, missing shards are skipped. -/
def update_rules (s : DiskState) (idx : KbIndex) : DiskState :=
  { s with
    base := s.base.map (fun sf => update_rules_shard sf idx),
    evdev := s.evdev.map (fun sf => update_rules_shard sf idx) }

/-- `update_symbols` lifted to the disk state. -/
def update_symbols_disk (s : DiskState) (idx : KbIndex) : DiskState :=
  { s with symbols := update_symbols s.symbols idx }

/-- `XKBManager.update` (xkb_manager.py lines 70-74): rules first, then
symbols (the index is cleared afterwards; the commit itself is this
composition). -/
def XKBManager_update (s : DiskState) (idx : KbIndex) : DiskState :=
  update_symbols_disk (update_rules s idx) idx

/-- The tree transformation `XKBManager.clean` applies to a parsed rules
file (xkb_manager.py lines 81-83): the `type` attribute is popped from
every variant node that has one. -/
def clean_tree (t : RegistryTree) : RegistryTree :=
  ⟨t.layouts.map (fun l =>
    { l with variants := l.variants.map (fun v => { v with vtype := none }) })⟩

/-- `XKBManager.clean` (xkb_manager.py lines 75-83): parses each existing
rules shard and drops the `type` attributes in the parsed (in-memory)
trees.  No write call appears in the source, so the disk state is returned
unchanged next to the in-memory trees the method builds. -/
def XKBManager_clean (s : DiskState) : DiskState × List RegistryTree :=
  (s, ((s.base.map ShardFile.tree).toList
        ++ (s.evdev.map ShardFile.tree).toList).map clean_tree)

-- ---------------------------------------------------------------------------
-- Listing (xkb_manager.py lines 306-325 and 385-416)
-- ---------------------------------------------------------------------------

/-- Python `dict` assignment on an insertion-ordered association list:
overwrite in place when the key exists, append otherwise. -/
def alSet {α : Type} : List (String × α) → String → α → List (String × α)
  | [], k, v => [(k, v)]
  | p :: rest, k, v =>
    if p.1 = k then (k, v) :: rest else p :: alSet rest k v

/-- Python `dict` lookup (first match). -/
def alGet {α : Type} : List (String × α) → String → Option α
  | [], _ => none
  | p :: rest, k => if p.1 = k then some p.2 else alGet rest k

/-- The listing result type: locale to (variant name to description),
Python's nested dicts, insertion-ordered. -/
abbrev ListIndex := List (String × List (String × String))

/-- `kb_index[locale][name] = desc` on the nested dict model, creating the
inner dict when needed. -/
def idxInsert (idx : ListIndex) (locale name desc : String) : ListIndex :=
  match alGet idx locale with
  | none => alSet idx locale [(name, desc)]
  | some inner => alSet idx locale (alSet inner name desc)

/-- Membership of a `(locale, variant)` pair in a listing result. -/
def memIndexB (idx : ListIndex) (locale name : String) : Bool :=
  match alGet idx locale with
  | none => false
  | some inner => (alGet inner name).isSome

/-- Insertion into a sorted association list, keeping existing smaller-or-equal
keys in front (stable, ascending by key). -/
def insSorted {α : Type} (p : String × α) :
    List (String × α) → List (String × α)
  | [] => [p]
  | q :: rest => if q.1 < p.1 then q :: insSorted p rest else p :: q :: rest

/-- Python `sorted(d.items())` for a dict with string keys (keys are unique,
so key comparison decides). -/
def sortByKey {α : Type} (l : List (String × α)) : List (String × α) :=
  l.foldr insSorted []

/-- The inner file scan of `list_symbols` for one locale (xkb_manager.py
lines 315-323): every recognized begin-marker name (note: Python checks
`name is None`, so an empty extracted name is still looked up) that is a key
of the candidate variants adds `variants[name]` to the result. -/
def list_symbols_scan (acc : ListIndex) (locale : String)
    (variants : List (String × String)) (content : String) : ListIndex :=
  (lineSplitS content).foldl
    (fun acc line =>
      match is_new_symbol_mark line with
      | none => acc
      | some name =>
        match alGet variants name with
        | some d => idxInsert acc locale name d
        | none => acc)
    acc

/-- `list_symbols(xkb_root, kb_index)` (xkb_manager.py lines 306-325):
locales are visited in sorted order, locales without a symbols file are
skipped entirely, and a candidate variant is kept only when a begin marker
with its name occurs in the file. -/
def list_symbols (store : SymStore) (kb : ListIndex) : ListIndex :=
  (sortByKey kb).foldl
    (fun acc p =>
      match store p.1 with
      | none => acc
      | some content => list_symbols_scan acc p.1 p.2 content)
    []

/-- One step of Python `str.split` for a one-character separator. -/
def pySplitStep (sep : Char) (c : Char) (acc : List (List Char)) :
    List (List Char) :=
  match acc with
  | [] => [[c]]
  | h :: t => if c = sep then [] :: h :: t else (c :: h) :: t

/-- Python `s.split(sep)` for a one-character separator: always at least one
part, separators not kept. -/
def pySplitChar (sep : Char) (s : String) : List String :=
  (s.data.foldr (pySplitStep sep) [[]]).map String.mk

/-- The mask parsing of `list_rules` (xkb_manager.py lines 388-397). -/
def maskSplit (mask : String) : String × String :=
  if mask = "" || mask = "*" then ("*", "*")
  else
    match pySplitChar '/' mask with
    | [a, b] => (a, b)
    | _ => (mask, "*")

/-- The accumulation over one parsed shard tree in `list_rules`
(xkb_manager.py lines 405-414): document-order iteration over all variant
nodes, filtered by the two masks. -/
def list_rules_tree (acc : ListIndex) (lm vm : String) (t : RegistryTree) :
    ListIndex :=
  t.layouts.foldl
    (fun acc lay =>
      lay.variants.foldl
        (fun acc v =>
          if (lm = "*" || lm = lay.locale) && (vm = "*" || vm = v.name) then
            idxInsert acc lay.locale v.name v.description
          else acc)
        acc)
    acc

/-- `list_rules(xkb_root, mask)` (xkb_manager.py lines 385-416): both shard
files contribute (base first, then evdev), missing files are skipped. -/
def list_rules (s : DiskState) (mask : String) : ListIndex :=
  let p := maskSplit mask
  let acc :=
    match s.base with
    | none => []
    | some sf => list_rules_tree [] p.1 p.2 sf.tree
  match s.evdev with
  | none => acc
  | some sf => list_rules_tree acc p.1 p.2 sf.tree

/-- `XKBManager.list_all` (xkb_manager.py lines 89-90). -/
def XKBManager_list_all (s : DiskState) (mask : String) : ListIndex :=
  list_rules s mask

/-- `XKBManager.list` (xkb_manager.py lines 85-87): rules listing filtered
through the symbols files. -/
def XKBManager_list (s : DiskState) (mask : String) : ListIndex :=
  list_symbols s.symbols (list_rules s mask)

-- ---------------------------------------------------------------------------
-- Exception handling (xkb_manager.py lines 424-432)
-- ---------------------------------------------------------------------------

/-- The exception classes `exit_FileNotWritable` distinguishes.  In Python
`PermissionError` is a subclass of `IOError`, and the permission test comes
first, so the three cases are disjoint in this order. -/
inductive PyExc where
  | permissionError
  | ioError (msg : String)
  | otherError (msg : String) (tb : String)
deriving Repr, DecidableEq

/-- What the handler does: re-raise the exception unchanged, or terminate
the process with `sys.exit(msg)`. -/
inductive ExcOutcome where
  | reraise (e : PyExc)
  | sysExit (msg : String)
deriving Repr, DecidableEq

/-- `exit_FileNotWritable(exception, path)` (xkb_manager.py lines 424-432):
permission errors propagate unchanged; other I/O errors terminate with a
message naming the path; anything else terminates with the exception text
and a traceback. -/
def exit_FileNotWritable (e : PyExc) (path : String) : ExcOutcome :=
  match e with
  | .permissionError => .reraise .permissionError
  | .ioError _ => .sysExit ("Error: could not write to file " ++ path ++ ".")
  | .otherError msg tb => .sysExit ("Error: " ++ msg ++ ".\n" ++ tb)

-- ---------------------------------------------------------------------------
-- Basic string lemmas
-- ---------------------------------------------------------------------------

theorem strData_append (a b : String) : (a ++ b).data = a.data ++ b.data := rfl

theorem pyEndsWith_append (x s : String) : pyEndsWith (x ++ s) s = true := by
  unfold pyEndsWith
  exact decide_eq_true ⟨x.data, (strData_append x s).symm⟩

theorem pyStartsWith_append (p y : String) : pyStartsWith (p ++ y) p = true := by
  unfold pyStartsWith
  exact decide_eq_true ⟨y.data, (strData_append p y).symm⟩

theorem pyStartsWith_self (s : String) : pyStartsWith s s = true := by
  unfold pyStartsWith
  exact decide_eq_true (List.prefix_refl s.data)

theorem strData_mk (l : List Char) : (String.mk l).data = l := rfl

theorem pyEndsWith_true_iff (s suffix : String) :
    pyEndsWith s suffix = true ↔ suffix.data <:+ s.data := by
  unfold pyEndsWith
  exact decide_eq_true_iff

/-- A line cannot end with both `::BEGIN` and `::END` markers. -/
theorem not_begin_and_end (s : String) :
    pyEndsWith s "::BEGIN\n" = true → pyEndsWith s "::END\n" = true → False := by
  intro h1 h2
  rw [pyEndsWith_true_iff] at h1 h2
  rcases List.suffix_or_suffix_of_suffix h1 h2 with h | h
  · exact absurd h (by decide)
  · exact absurd h (by decide)

theorem pyRstrip_append_newline (s : String) :
    pyRstrip (s ++ "\n") = pyRstrip s := by
  unfold pyRstrip
  rw [strData_append]
  simp [List.reverse_append]
  rfl

theorem dropWhile_dropWhile {α : Type} (p : α → Bool) (l : List α) :
    (l.dropWhile p).dropWhile p = l.dropWhile p := by
  induction l with
  | nil => rfl
  | cons a t ih =>
    by_cases h : p a
    · simp [List.dropWhile, h, ih]
    · simp [List.dropWhile, h]

theorem pyRstrip_idem (s : String) : pyRstrip (pyRstrip s) = pyRstrip s := by
  unfold pyRstrip
  simp [dropWhile_dropWhile]

theorem pyRstrip_empty : pyRstrip "" = "" := rfl

-- ---------------------------------------------------------------------------
-- Recognition lemmas for the marker protocol
-- ---------------------------------------------------------------------------

theorem mark_none_of_not_begin (line : String)
    (h : pyEndsWith line "::BEGIN\n" = false) : is_new_symbol_mark line = none := by
  unfold is_new_symbol_mark
  rw [h]
  rfl

theorem mark_isSome_ends_begin (line : String) (n : String)
    (h : is_new_symbol_mark line = some n) :
    pyEndsWith line "::BEGIN\n" = true := by
  by_cases hb : pyEndsWith line "::BEGIN\n" = true
  · exact hb
  · rw [mark_none_of_not_begin line (by simpa using hb)] at h
    exact absurd h (by simp)

theorem drop13_dropRight8 (m : String) :
    pyDropRight (pyDrop ("// KALAMINE::" ++ m ++ "::BEGIN\n") 13) 8 = m := by
  have hdata : ("// KALAMINE::" ++ m ++ "::BEGIN\n").data
      = "// KALAMINE::".data ++ (m.data ++ "::BEGIN\n".data) := by
    simp [strData_append]
  unfold pyDrop pyDropRight
  rw [strData_mk, hdata]
  have h13 : ("// KALAMINE::".data).length = 13 := by decide
  rw [← h13, List.drop_left]
  have hlen : (m.data ++ "::BEGIN\n".data).length - 8 = m.data.length := by
    simp
  rw [hlen, List.take_left]

theorem mark_of_kalamine_line (m : String) :
    is_new_symbol_mark ("// KALAMINE::" ++ m ++ "::BEGIN\n")
      = some (pyLower m) := by
  have hdata : ("// KALAMINE::" ++ m ++ "::BEGIN\n").data
      = "// KALAMINE::".data ++ (m.data ++ "::BEGIN\n".data) := by
    simp [strData_append]
  unfold is_new_symbol_mark
  have he : pyEndsWith ("// KALAMINE::" ++ m ++ "::BEGIN\n") "::BEGIN\n" = true :=
    pyEndsWith_append ("// KALAMINE::" ++ m) "::BEGIN\n"
  have hs : pyStartsWith ("// KALAMINE::" ++ m ++ "::BEGIN\n") "// KALAMINE::" = true := by
    unfold pyStartsWith
    exact decide_eq_true ⟨m.data ++ "::BEGIN\n".data, hdata.symm⟩
  rw [he, hs, drop13_dropRight8]
  rfl

theorem closing_of_kalamine_line (m : String) :
    pyDropRight ("// KALAMINE::" ++ m ++ "::BEGIN\n") 6 ++ "END\n"
      = "// KALAMINE::" ++ m ++ "::END\n" := by
  have hsplit : ("// KALAMINE::" ++ m ++ "::BEGIN\n")
      = ("// KALAMINE::" ++ m ++ "::") ++ "BEGIN\n" := by
    rw [String.append_assoc, String.append_assoc]
    rfl
  have : pyDropRight ("// KALAMINE::" ++ m ++ "::BEGIN\n") 6
      = "// KALAMINE::" ++ m ++ "::" := by
    unfold pyDropRight
    rw [hsplit, strData_append]
    have hlen : (("// KALAMINE::" ++ m ++ "::").data ++ "BEGIN\n".data).length - 6
        = ("// KALAMINE::" ++ m ++ "::").data.length := by
      simp
    rw [hlen, List.take_left]
  rw [this, String.append_assoc, String.append_assoc]
  rfl

theorem mark_lafayette (line : String)
    (hb : pyEndsWith line "::BEGIN\n" = true)
    (hk : pyStartsWith line "// KALAMINE::" = false) :
    is_new_symbol_mark line = some "lafayette" := by
  unfold is_new_symbol_mark
  rw [hb, hk]
  rfl

-- ---------------------------------------------------------------------------
-- Scan-step case lemmas
-- ---------------------------------------------------------------------------

/-- Whether the scan loop starts dropping a block at this line: a truthy
recognized begin marker whose name is a key of the mapping. -/
def dropsLine (keys : List String) (line : String) : Bool :=
  match is_new_symbol_mark line with
  | some n => !(n = "") && keys.contains n
  | none => false

theorem scanLine_keep (keys : List String) (st : ScanState) (line : String)
    (hb : st.between = false) (hd : dropsLine keys line = false) :
    scanLine keys st line = { st with text := st.text ++ line } := by
  unfold scanLine
  cases hm : is_new_symbol_mark line with
  | some n =>
    unfold dropsLine at hd
    rw [hm] at hd
    by_cases hn : n = ""
    · subst hn
      simp only [ne_eq, not_true_eq_false, if_false, ite_false]
      unfold scanRest
      have hnotend : pyEndsWith line "::END\n" = false := by
        by_cases h : pyEndsWith line "::END\n" = true
        · exact absurd (not_begin_and_end line (mark_isSome_ends_begin line _ hm) h) id
        · simpa using h
      rw [hnotend, hb]
      simp
    · have hc : keys.contains n = false := by
        simpa [hn] using hd
      dsimp only
      rw [if_pos hn, if_neg (by simpa using hc)]
  | none =>
    unfold scanRest
    rw [hb]
    by_cases h : pyEndsWith line "::END\n" = true
    · simp [h]
    · simp [h]

theorem scanLine_drop (keys : List String) (st : ScanState) (line n : String)
    (hm : is_new_symbol_mark line = some n) (hn : n ≠ "")
    (hc : keys.contains n = true) :
    scanLine keys st line
      = ⟨pyRstrip st.text, true, true, pyDropRight line 6 ++ "END\n"⟩ := by
  unfold scanLine
  rw [hm]
  dsimp only
  rw [if_pos hn, if_pos hc]

theorem scanLine_inside (keys : List String) (st : ScanState) (line : String)
    (hb : st.between = true)
    (h1 : pyEndsWith line "::BEGIN\n" = false)
    (h2 : pyEndsWith line "::END\n" = false) :
    scanLine keys st line = st := by
  unfold scanLine
  rw [mark_none_of_not_begin line h1]
  unfold scanRest
  rw [h2, hb]
  simp

theorem scanLine_close (keys : List String) (st : ScanState) (line : String)
    (hb : st.between = true)
    (h2 : pyEndsWith line "::END\n" = true)
    (hs : pyStartsWith line st.closing = true) :
    scanLine keys st line = { st with between := false, closing := "" } := by
  unfold scanLine
  have h1 : pyEndsWith line "::BEGIN\n" = false := by
    by_cases h : pyEndsWith line "::BEGIN\n" = true
    · exact absurd (not_begin_and_end line h h2) id
    · simpa using h
  rw [mark_none_of_not_begin line h1]
  unfold scanRest
  rw [h2, hb, hs]
  simp

-- ---------------------------------------------------------------------------
-- Scan lemmas over line lists
-- ---------------------------------------------------------------------------

theorem scanList_nil (keys : List String) (st : ScanState) :
    scanList keys st [] = st := rfl

theorem scanList_cons (keys : List String) (st : ScanState) (l : String)
    (ls : List String) :
    scanList keys st (l :: ls) = scanList keys (scanLine keys st l) ls := rfl

theorem scanList_append (keys : List String) (st : ScanState)
    (l1 l2 : List String) :
    scanList keys st (l1 ++ l2) = scanList keys (scanList keys st l1) l2 :=
  List.foldl_append _ _ _ _

/-- Outside of a block, a sequence of non-dropping lines is passed through
verbatim and the scan state is otherwise unchanged. -/
theorem scanList_keep (keys : List String) (lines : List String)
    (hd : ∀ l ∈ lines, dropsLine keys l = false) :
    ∀ st : ScanState, st.between = false →
      scanList keys st lines = { st with text := st.text ++ strJoin lines } := by
  induction lines with
  | nil => intro st hb; simp [scanList_nil, strJoin]
  | cons l ls ih =>
    intro st hb
    rw [scanList_cons, scanLine_keep keys st l hb (hd l (by simp))]
    rw [ih (fun x hx => hd x (by simp [hx]))
      { st with text := st.text ++ l } hb]
    simp [strJoin, String.append_assoc]

-- ---------------------------------------------------------------------------
-- Line-splitting algebra
-- ---------------------------------------------------------------------------

theorem lineSplitStep_newline (acc : List (List Char)) :
    lineSplitStep '\n' acc = ['\n'] :: acc := by
  cases acc <;> simp [lineSplitStep]

theorem lineSplitStep_ne_nil (c : Char) (acc : List (List Char)) :
    lineSplitStep c acc ≠ [] := by
  cases acc with
  | nil => simp [lineSplitStep]
  | cons h t =>
    simp only [lineSplitStep]
    split <;> simp

theorem lineSplit_ne_nil (l : List Char) (h : l ≠ []) : lineSplit l ≠ [] := by
  cases l with
  | nil => exact absurd rfl h
  | cons c cs => exact lineSplitStep_ne_nil c _

theorem lineSplitStep_append (c : Char) (X acc : List (List Char))
    (hX : X ≠ []) : lineSplitStep c (X ++ acc) = lineSplitStep c X ++ acc := by
  cases X with
  | nil => exact absurd rfl hX
  | cons x xs =>
    simp only [lineSplitStep, List.cons_append]
    split <;> simp

theorem foldr_lineSplitStep_acc (l : List Char) :
    l.getLast? = some '\n' →
    ∀ acc : List (List Char),
      l.foldr lineSplitStep acc = lineSplit l ++ acc := by
  induction l with
  | nil => intro h; exact absurd h (by simp)
  | cons c cs ih =>
    intro h acc
    cases cs with
    | nil =>
      have hc : c = '\n' := by simpa using h
      subst hc
      simp [lineSplit, lineSplitStep_newline]
    | cons d ds =>
      have hlast : (d :: ds).getLast? = some '\n' := by
        rwa [List.getLast?_cons_cons] at h
      show lineSplitStep c ((d :: ds).foldr lineSplitStep acc) = _
      rw [ih hlast acc]
      have : lineSplit (c :: d :: ds) = lineSplitStep c (lineSplit (d :: ds)) := rfl
      rw [this, lineSplitStep_append c _ acc (lineSplit_ne_nil _ (by simp))]

theorem lineSplit_append (a b : List Char) (h : a.getLast? = some '\n') :
    lineSplit (a ++ b) = lineSplit a ++ lineSplit b := by
  unfold lineSplit
  rw [List.foldr_append]
  exact foldr_lineSplitStep_acc a h (b.foldr lineSplitStep [])

theorem foldr_no_newline (l : List Char) (h : '\n' ∉ l) (y : List Char)
    (ys : List (List Char)) :
    l.foldr lineSplitStep ((y :: ys) : List (List Char)) = (l ++ y) :: ys := by
  induction l with
  | nil => rfl
  | cons c cs ih =>
    have hc : c ≠ '\n' := fun hc => h (by simp [hc])
    have hcs : '\n' ∉ cs := fun hm => h (by simp [hm])
    show lineSplitStep c (cs.foldr lineSplitStep (y :: ys)) = _
    rw [ih hcs]
    simp [lineSplitStep, hc]

theorem lineSplit_single (l : List Char) (h : '\n' ∉ l) :
    lineSplit (l ++ ['\n']) = [l ++ ['\n']] := by
  unfold lineSplit
  rw [List.foldr_append]
  show l.foldr lineSplitStep (lineSplitStep '\n' []) = _
  rw [lineSplitStep_newline]
  exact foldr_no_newline l h ['\n'] []

theorem lineSplit_eq_nil (l : List Char) (h : lineSplit l = []) : l = [] := by
  cases l with
  | nil => rfl
  | cons c cs => exact absurd h (lineSplitStep_ne_nil c _)

theorem lineSplit_join (l : List Char) : (lineSplit l).flatten = l := by
  induction l with
  | nil => rfl
  | cons c cs ih =>
    show (lineSplitStep c (lineSplit cs)).flatten = c :: cs
    cases hcs : lineSplit cs with
    | nil =>
      rw [lineSplit_eq_nil cs hcs]
      simp [lineSplitStep]
    | cons h t =>
      rw [hcs] at ih
      simp only [lineSplitStep]
      split
      · next hc =>
          subst hc
          simp only [List.flatten_cons]
          show '\n' :: (h ++ t.flatten) = '\n' :: cs
          simpa using ih
      · simp [List.flatten, ← ih]

theorem strJoin_map_mk (ls : List (List Char)) :
    strJoin (ls.map String.mk) = ⟨ls.flatten⟩ := by
  induction ls with
  | nil => rfl
  | cons a t ih =>
    show String.mk a ++ strJoin (t.map String.mk) = _
    rw [ih]
    rfl

theorem strJoin_lineSplitS (s : String) : strJoin (lineSplitS s) = s := by
  unfold lineSplitS
  rw [strJoin_map_mk, lineSplit_join]

theorem lineSplitS_append (a b : String) (h : a.data.getLast? = some '\n') :
    lineSplitS (a ++ b) = lineSplitS a ++ lineSplitS b := by
  unfold lineSplitS
  rw [strData_append, lineSplit_append a.data b.data h, List.map_append]

-- ---------------------------------------------------------------------------
-- Scanning a block
-- ---------------------------------------------------------------------------

/-- While inside a block, lines that end with neither marker suffix are
dropped without any state change. -/
theorem scanList_inside (keys : List String) (lines : List String)
    (h : ∀ l ∈ lines,
      pyEndsWith l "::BEGIN\n" = false ∧ pyEndsWith l "::END\n" = false) :
    ∀ st : ScanState, st.between = true → scanList keys st lines = st := by
  induction lines with
  | nil => intro st _; rfl
  | cons l ls ih =>
    intro st hb
    rw [scanList_cons,
      scanLine_inside keys st l hb (h l (by simp)).1 (h l (by simp)).2]
    exact ih (fun x hx => h x (by simp [hx])) st hb

/-- The current-format begin line for a (possibly upper-cased) embedded
name. -/
def beginLine (M : String) : String := "// KALAMINE::" ++ M ++ "::BEGIN\n"

/-- The current-format end line for a (possibly upper-cased) embedded
name. -/
def endLine (M : String) : String := "// KALAMINE::" ++ M ++ "::END\n"

theorem endLine_ends (M : String) : pyEndsWith (endLine M) "::END\n" = true := by
  unfold endLine
  exact pyEndsWith_append ("// KALAMINE::" ++ M) "::END\n"

/-- Scanning a well-formed current-format block whose lower-cased name is a
key of the mapping: the whole block is consumed, the accumulated output is
right-stripped, and the scanner ends up outside a block again. -/
theorem scanList_block (keys : List String) (M : String) (body : List String)
    (st : ScanState)
    (hne : pyLower M ≠ "") (hk : keys.contains (pyLower M) = true)
    (hbody : ∀ l ∈ body,
      pyEndsWith l "::BEGIN\n" = false ∧ pyEndsWith l "::END\n" = false) :
    scanList keys st (beginLine M :: (body ++ [endLine M]))
      = ⟨pyRstrip st.text, true, false, ""⟩ := by
  rw [scanList_cons,
    scanLine_drop keys st (beginLine M) (pyLower M) (mark_of_kalamine_line M) hne hk]
  rw [show (body ++ [endLine M]) = body ++ [endLine M] from rfl]
  rw [scanList_append]
  rw [scanList_inside keys body hbody _ rfl]
  rw [show scanList keys _ [endLine M]
      = scanLine keys ⟨pyRstrip st.text, true, true, pyDropRight (beginLine M) 6 ++ "END\n"⟩ (endLine M) from rfl]
  rw [scanLine_close keys _ (endLine M) rfl (endLine_ends M)
    (by rw [show (⟨pyRstrip st.text, true, true, pyDropRight (beginLine M) 6 ++ "END\n"⟩ : ScanState).closing
          = pyDropRight (beginLine M) 6 ++ "END\n" from rfl]
        rw [show pyDropRight (beginLine M) 6 ++ "END\n" = endLine M from closing_of_kalamine_line M]
        exact pyStartsWith_self (endLine M))]

-- ---------------------------------------------------------------------------
-- The appended text in normal form
-- ---------------------------------------------------------------------------

/-- The installed entries of a mapping (tombstones filtered out), in
insertion order. -/
def installs (v : VariantMap) : List (String × KeyboardLayout) :=
  v.filterMap (fun p => p.2.map (fun layout => (p.1, layout)))

/-- The text appended for one installed layout. -/
def blockText (p : String × KeyboardLayout) : String :=
  "\n" ++ (get_symbol_mark p.1).1 ++ (processedBody p.2 ++ (get_symbol_mark p.1).2)

/-- The text appended for a list of installed layouts. -/
def blocksText : List (String × KeyboardLayout) → String
  | [] => ""
  | p :: rest => blockText p ++ blocksText rest

theorem foldl_appendBlockStep (v : VariantMap) :
    ∀ acc : String, v.foldl appendBlockStep acc = acc ++ blocksText (installs v) := by
  induction v with
  | nil => intro acc; simp [installs, blocksText, String.append_empty]
  | cons p rest ih =>
    intro acc
    show rest.foldl appendBlockStep (appendBlockStep acc p) = _
    cases hp : p.2 with
    | none =>
      rw [show appendBlockStep acc p = acc by unfold appendBlockStep; rw [hp]]
      rw [ih acc]
      have : installs (p :: rest) = installs rest := by
        unfold installs
        simp [List.filterMap_cons, hp]
      rw [this]
    | some layout =>
      rw [show appendBlockStep acc p
          = acc ++ "\n" ++ (get_symbol_mark p.1).1 ++ processedBody layout
              ++ (get_symbol_mark p.1).2 by unfold appendBlockStep; rw [hp]]
      rw [ih]
      have : installs (p :: rest) = (p.1, layout) :: installs rest := by
        unfold installs
        simp [List.filterMap_cons, hp]
      rw [this]
      show _ = acc ++ (blockText (p.1, layout) ++ blocksText (installs rest))
      unfold blockText
      simp [String.append_assoc]

theorem appendBlocks_eq (v : VariantMap) :
    appendBlocks v = blocksText (installs v) := by
  unfold appendBlocks
  rw [foldl_appendBlockStep v ""]
  rfl

theorem mem_installs_key (v : VariantMap) (p : String × KeyboardLayout)
    (h : p ∈ installs v) : p.1 ∈ variantKeys v := by
  unfold installs at h
  rw [List.mem_filterMap] at h
  obtain ⟨a, ha, hfa⟩ := h
  cases ha2 : a.2 with
  | none => rw [ha2] at hfa; exact absurd hfa (by simp)
  | some layout =>
    rw [ha2] at hfa
    simp only [Option.map_some'] at hfa
    have hp : (a.1, layout) = p := Option.some.inj hfa
    have : p.1 = a.1 := by rw [← hp]
    rw [this]
    exact List.mem_map_of_mem Prod.fst ha

theorem contains_of_mem {l : List String} {a : String} (h : a ∈ l) :
    l.contains a = true := by
  exact List.elem_iff.mpr h

-- ---------------------------------------------------------------------------
-- Line structure of the appended blocks
-- ---------------------------------------------------------------------------

theorem endsNl_append (a b : String) (h : b.data.getLast? = some '\n') :
    (a ++ b).data.getLast? = some '\n' := by
  rw [strData_append, List.getLast?_append, h]
  rfl

theorem endLine_endsNl (M : String) : (endLine M).data.getLast? = some '\n' :=
  endsNl_append ("// KALAMINE::" ++ M) "::END\n" (by decide)

theorem beginLine_endsNl (M : String) : (beginLine M).data.getLast? = some '\n' :=
  endsNl_append ("// KALAMINE::" ++ M) "::BEGIN\n" (by decide)

theorem processedBody_endsNl (layout : KeyboardLayout) :
    (processedBody layout).data.getLast? = some '\n' :=
  endsNl_append _ "\n" (by decide)

theorem lineSplitS_beginLine (M : String) (h : '\n' ∉ M.data) :
    lineSplitS (beginLine M) = [beginLine M] := by
  have h8 : ("::BEGIN\n" : String).data = "::BEGIN".data ++ ['\n'] := by decide
  have hd : (beginLine M).data
      = ("// KALAMINE::".data ++ (M.data ++ "::BEGIN".data)) ++ ['\n'] := by
    simp [beginLine, strData_append, h8]
  have hnot : '\n' ∉ ("// KALAMINE::".data ++ (M.data ++ "::BEGIN".data)) := by
    intro hm
    rcases List.mem_append.1 hm with h1 | h2
    · exact absurd h1 (by decide)
    · rcases List.mem_append.1 h2 with h3 | h4
      · exact h h3
      · exact absurd h4 (by decide)
  unfold lineSplitS
  rw [hd, lineSplit_single _ hnot]
  simp only [List.map_cons, List.map_nil]
  rw [← hd]

theorem lineSplitS_endLine (M : String) (h : '\n' ∉ M.data) :
    lineSplitS (endLine M) = [endLine M] := by
  have h8 : ("::END\n" : String).data = "::END".data ++ ['\n'] := by decide
  have hd : (endLine M).data
      = ("// KALAMINE::".data ++ (M.data ++ "::END".data)) ++ ['\n'] := by
    simp [endLine, strData_append, h8]
  have hnot : '\n' ∉ ("// KALAMINE::".data ++ (M.data ++ "::END".data)) := by
    intro hm
    rcases List.mem_append.1 hm with h1 | h2
    · exact absurd h1 (by decide)
    · rcases List.mem_append.1 h2 with h3 | h4
      · exact h h3
      · exact absurd h4 (by decide)
  unfold lineSplitS
  rw [hd, lineSplit_single _ hnot]
  simp only [List.map_cons, List.map_nil]
  rw [← hd]

theorem get_symbol_mark_fst (name : String) :
    (get_symbol_mark name).1 = beginLine (pyUpper name) := rfl

theorem get_symbol_mark_snd (name : String) :
    (get_symbol_mark name).2 = endLine (pyUpper name) := rfl

theorem blockText_endsNl (p : String × KeyboardLayout) :
    (blockText p).data.getLast? = some '\n' := by
  unfold blockText
  exact endsNl_append _ _ (endsNl_append _ _ (endLine_endsNl (pyUpper p.1)))

theorem lineSplitS_blockText (p : String × KeyboardLayout)
    (h : '\n' ∉ (pyUpper p.1).data) :
    lineSplitS (blockText p)
      = "\n" :: beginLine (pyUpper p.1)
          :: (lineSplitS (processedBody p.2) ++ [endLine (pyUpper p.1)]) := by
  unfold blockText
  rw [get_symbol_mark_fst, get_symbol_mark_snd]
  rw [lineSplitS_append _ _ (endsNl_append "\n" _ (beginLine_endsNl _))]
  rw [lineSplitS_append _ _ (by decide : ("\n" : String).data.getLast? = some '\n')]
  rw [lineSplitS_append _ _ (processedBody_endsNl p.2)]
  rw [lineSplitS_beginLine _ h, lineSplitS_endLine _ h]
  rfl

-- ---------------------------------------------------------------------------
-- Scanning the appended blocks
-- ---------------------------------------------------------------------------

theorem dropsLine_newline (keys : List String) : dropsLine keys "\n" = false := by
  unfold dropsLine
  rw [mark_none_of_not_begin "\n" (by decide)]

/-- Well-formedness of an installed entry for re-scanning: a non-empty
lower-case-normal variant name without newlines, and a processed body none
of whose lines end in a marker suffix. -/
def wfInstall (p : String × KeyboardLayout) : Prop :=
  p.1 ≠ "" ∧ pyLower (pyUpper p.1) = p.1 ∧ '\n' ∉ (pyUpper p.1).data ∧
  ∀ l ∈ lineSplitS (processedBody p.2),
    pyEndsWith l "::BEGIN\n" = false ∧ pyEndsWith l "::END\n" = false

instance (p : String × KeyboardLayout) : Decidable (wfInstall p) := by
  unfold wfInstall
  infer_instance

theorem scanList_one_blockText (keys : List String) (p : String × KeyboardLayout)
    (hw : wfInstall p) (hk : keys.contains p.1 = true)
    (st : ScanState) (hb : st.between = false) :
    scanList keys st (lineSplitS (blockText p))
      = ⟨pyRstrip st.text, true, false, ""⟩ := by
  obtain ⟨h1, h2, h3, h4⟩ := hw
  rw [lineSplitS_blockText p h3]
  rw [scanList_cons, scanLine_keep keys st "\n" hb (dropsLine_newline keys)]
  rw [scanList_block keys (pyUpper p.1) (lineSplitS (processedBody p.2))
    { st with text := st.text ++ "\n" }
    (by rw [h2]; exact h1) (by rw [h2]; exact hk) h4]
  show ScanState.mk (pyRstrip (st.text ++ "\n")) true false "" = _
  rw [pyRstrip_append_newline]

theorem scanList_blocksText (keys : List String)
    (ps : List (String × KeyboardLayout))
    (hw : ∀ p ∈ ps, wfInstall p) (hk : ∀ p ∈ ps, keys.contains p.1 = true) :
    ∀ st : ScanState, st.between = false → ps ≠ [] →
      scanList keys st (lineSplitS (blocksText ps))
        = ⟨pyRstrip st.text, true, false, ""⟩ := by
  induction ps with
  | nil => intro st _ hne; exact absurd rfl hne
  | cons p rest ih =>
    intro st hb _
    show scanList keys st (lineSplitS (blockText p ++ blocksText rest)) = _
    rw [lineSplitS_append _ _ (blockText_endsNl p)]
    rw [scanList_append]
    rw [scanList_one_blockText keys p (hw p (by simp)) (hk p (by simp)) st hb]
    cases hr : rest with
    | nil => rfl
    | cons q qs =>
      rw [← hr,
        ih (fun x hx => hw x (by simp [hx])) (fun x hx => hk x (by simp [hx]))
          ⟨pyRstrip st.text, true, false, ""⟩ rfl (by rw [hr]; simp)]
      show ScanState.mk (pyRstrip (pyRstrip st.text)) true false "" = _
      rw [pyRstrip_idem]

-- ---------------------------------------------------------------------------
-- Idempotence of update_symbols_locale on clean inputs
-- ---------------------------------------------------------------------------

theorem scanList_all_keep (v : VariantMap) (c : String)
    (hnodrop : ∀ l ∈ lineSplitS c, dropsLine (variantKeys v) l = false) :
    scanList (variantKeys v) initScan (lineSplitS c) = ⟨c, false, false, ""⟩ := by
  rw [scanList_keep (variantKeys v) (lineSplitS c) hnodrop initScan rfl]
  show ScanState.mk ("" ++ strJoin (lineSplitS c)) false false "" = _
  rw [strJoin_lineSplitS]
  rfl

theorem update_symbols_locale_nodrop (c : String) (v : VariantMap)
    (hnodrop : ∀ l ∈ lineSplitS c, dropsLine (variantKeys v) l = false) :
    update_symbols_locale c v = c ++ appendBlocks v := by
  unfold update_symbols_locale
  rw [scanList_all_keep v c hnodrop]
  rfl

theorem getLastNl_of_clean (c : String) (hclean : c = pyRstrip c ++ "\n") :
    c.data.getLast? = some '\n' := by
  conv => lhs; rw [hclean]
  rw [strData_append]
  exact List.getLast?_concat _

/-- Re-running `update_symbols_locale` with the same mapping is a byte-level
no-op, provided the starting file is newline-terminated with no trailing
blank space, contains no begin marker recognized under a key of the mapping,
and the mapping's installed entries are well formed. -/
theorem update_symbols_locale_idem (c : String) (v : VariantMap)
    (hclean : c = pyRstrip c ++ "\n")
    (hnodrop : ∀ l ∈ lineSplitS c, dropsLine (variantKeys v) l = false)
    (hw : ∀ p ∈ installs v, wfInstall p) :
    update_symbols_locale (update_symbols_locale c v) v
      = update_symbols_locale c v := by
  rw [update_symbols_locale_nodrop c v hnodrop]
  cases hins : installs v with
  | nil =>
    have hab : appendBlocks v = "" := by rw [appendBlocks_eq, hins]; rfl
    rw [hab, String.append_empty]
    rw [update_symbols_locale_nodrop c v hnodrop, hab, String.append_empty]
  | cons p ps =>
    have hk : ∀ q ∈ installs v, (variantKeys v).contains q.1 = true :=
      fun q hq => contains_of_mem (mem_installs_key v q hq)
    have hscan2 : scanList (variantKeys v) initScan
        (lineSplitS (c ++ appendBlocks v)) = ⟨pyRstrip c, true, false, ""⟩ := by
      rw [lineSplitS_append c _ (getLastNl_of_clean c hclean)]
      rw [scanList_append, scanList_all_keep v c hnodrop]
      rw [appendBlocks_eq]
      rw [scanList_blocksText (variantKeys v) (installs v) hw hk
        ⟨c, false, false, ""⟩ rfl (by rw [hins]; simp)]
    unfold update_symbols_locale
    rw [hscan2]
    show (pyRstrip (pyRstrip c) ++ "\n") ++ appendBlocks v = _
    rw [pyRstrip_idem, ← hclean]

-- ---------------------------------------------------------------------------
-- Proper lines and joining
-- ---------------------------------------------------------------------------

/-- A proper text line: newline-terminated, with no interior newline. -/
def properLine (l : String) : Prop :=
  l.data.getLast? = some '\n' ∧ '\n' ∉ l.data.dropLast

instance (l : String) : Decidable (properLine l) := by
  unfold properLine
  infer_instance

theorem lineSplitS_properLine (l : String) (h : properLine l) :
    lineSplitS l = [l] := by
  obtain ⟨h1, h2⟩ := h
  have heq : l.data.dropLast ++ ['\n'] = l.data :=
    List.dropLast_append_getLast? '\n' (by simp [Option.mem_def, h1])
  unfold lineSplitS
  conv => lhs; rw [← heq]
  rw [lineSplit_single _ h2]
  simp only [List.map_cons, List.map_nil]
  rw [heq]

theorem strJoin_proper_split (lines : List String)
    (h : ∀ l ∈ lines, properLine l) :
    lineSplitS (strJoin lines) = lines := by
  induction lines with
  | nil => rfl
  | cons l ls ih =>
    show lineSplitS (l ++ strJoin ls) = _
    rw [lineSplitS_append l _ (h l (by simp)).1,
      lineSplitS_properLine l (h l (by simp)),
      ih (fun x hx => h x (by simp [hx]))]
    rfl

theorem properLine_beginLine (M : String) (h : '\n' ∉ M.data) :
    properLine (beginLine M) := by
  have h8 : ("::BEGIN\n" : String).data = "::BEGIN".data ++ ['\n'] := by decide
  have hd : (beginLine M).data
      = ("// KALAMINE::".data ++ (M.data ++ "::BEGIN".data)) ++ ['\n'] := by
    simp [beginLine, strData_append, h8]
  constructor
  · rw [hd]; exact List.getLast?_concat _
  · rw [hd, List.dropLast_concat]
    intro hm
    rcases List.mem_append.1 hm with h1 | h2
    · exact absurd h1 (by decide)
    · rcases List.mem_append.1 h2 with h3 | h4
      · exact h h3
      · exact absurd h4 (by decide)

theorem properLine_endLine (M : String) (h : '\n' ∉ M.data) :
    properLine (endLine M) := by
  have h8 : ("::END\n" : String).data = "::END".data ++ ['\n'] := by decide
  have hd : (endLine M).data
      = ("// KALAMINE::".data ++ (M.data ++ "::END".data)) ++ ['\n'] := by
    simp [endLine, strData_append, h8]
  constructor
  · rw [hd]; exact List.getLast?_concat _
  · rw [hd, List.dropLast_concat]
    intro hm
    rcases List.mem_append.1 hm with h1 | h2
    · exact absurd h1 (by decide)
    · rcases List.mem_append.1 h2 with h3 | h4
      · exact h h3
      · exact absurd h4 (by decide)

-- ---------------------------------------------------------------------------
-- Claim C1
-- ---------------------------------------------------------------------------

/-- C1, counterexample.  The claim says the *entire* block — begin line
through matching end line — of a recognized in-mapping begin marker is
dropped from the output.  On this file, whose single `foo` block contains an
interior line ending in `::END` that does not match the closing marker, the
code keeps that interior line: the output would be `"\n"` if the whole block
were dropped, but it is `"something::END\n"`. -/
theorem C1_counterexample :
    update_symbols_locale
        "// KALAMINE::FOO::BEGIN\nsomething::END\n// KALAMINE::FOO::END\n"
        [("foo", none)]
      = "something::END\n" := by rfl

/-- C1 (amended): for every recognized begin marker whose lower-cased name
is a key of the mapping, the block — begin line through matching end
line — is dropped from the output provided its interior lines end in
neither `::BEGIN` nor `::END` (lines that do are passed through, as the
counterexample shows); surrounding content is kept (the text before the
block loses trailing blank space), and the appended text contributes
exactly one block per installed entry, so re-installing a variant that is
already present yields exactly one block for it. -/
theorem C1_block_drop_amended (v : VariantMap) (pre post body : List String)
    (M : String)
    (hpre : ∀ l ∈ pre, properLine l ∧ dropsLine (variantKeys v) l = false)
    (hpost : ∀ l ∈ post, properLine l ∧ dropsLine (variantKeys v) l = false)
    (hname : pyLower M ≠ "")
    (hkey : (variantKeys v).contains (pyLower M) = true)
    (hM : '\n' ∉ M.data)
    (hbody : ∀ l ∈ body, properLine l ∧
        pyEndsWith l "::BEGIN\n" = false ∧ pyEndsWith l "::END\n" = false) :
    update_symbols_locale
        (strJoin (pre ++ (beginLine M :: (body ++ [endLine M])) ++ post)) v
      = pyRstrip (pyRstrip (strJoin pre) ++ strJoin post) ++ "\n"
          ++ appendBlocks v := by
  have hprop : ∀ l ∈ pre ++ (beginLine M :: (body ++ [endLine M])) ++ post,
      properLine l := by
    intro l hl
    rcases List.mem_append.1 hl with h1 | hp
    · rcases List.mem_append.1 h1 with h2 | h3
      · exact (hpre l h2).1
      · rcases List.mem_cons.1 h3 with h4 | h5
        · rw [h4]; exact properLine_beginLine M hM
        · rcases List.mem_append.1 h5 with h6 | h7
          · exact (hbody l h6).1
          · rw [List.mem_singleton.1 h7]; exact properLine_endLine M hM
    · exact (hpost l hp).1
  unfold update_symbols_locale
  rw [strJoin_proper_split _ hprop]
  rw [scanList_append, scanList_append]
  rw [scanList_keep (variantKeys v) pre (fun l hl => (hpre l hl).2) initScan rfl]
  rw [scanList_block (variantKeys v) M body _ hname hkey
    (fun l hl => ⟨(hbody l hl).2.1, (hbody l hl).2.2⟩)]
  rw [scanList_keep (variantKeys v) post (fun l hl => (hpost l hl).2) _ rfl]
  rfl

/-- C1, witness for the amended theorem at a concrete input. -/
theorem C1_witness :
    update_symbols_locale
        (strJoin (["unrelated\n"]
          ++ (beginLine "FOO" :: (["old body\n"] ++ [endLine "FOO"]))
          ++ ["trailer\n"]))
        [("foo", some ⟨"desc", "new body\n"⟩)]
      = pyRstrip (pyRstrip (strJoin ["unrelated\n"]) ++ strJoin ["trailer\n"])
          ++ "\n" ++ appendBlocks [("foo", some ⟨"desc", "new body\n"⟩)] :=
  C1_block_drop_amended [("foo", some ⟨"desc", "new body\n"⟩)]
    ["unrelated\n"] ["trailer\n"] ["old body\n"] "FOO"
    (by decide) (by decide) (by decide) (by decide) (by decide) (by decide)

-- ---------------------------------------------------------------------------
-- Claim C2
-- ---------------------------------------------------------------------------

/-- C2: during the block-scanning pass of `update_symbols_locale`, once the
scanner is inside a recognized block, a line closes that block if and only
if it is an end-marker line (ends with `::END`) whose prefix matches the
opening marker's recorded closing mark; any other line — including a
foreign line ending in `::END` or a line that looks like another marker —
leaves the scanner inside the block, so a legacy-format block and a
current-format block are each closed only by their own end marker. -/
theorem C2_close_iff (keys : List String) (st : ScanState) (line : String)
    (h : st.between = true) :
    (scanLine keys st line).between = false ↔
      (pyEndsWith line "::END\n" = true ∧ pyStartsWith line st.closing = true) := by
  cases hm : is_new_symbol_mark line with
  | some n =>
    have hbegin := mark_isSome_ends_begin line n hm
    have hend : pyEndsWith line "::END\n" = false := by
      by_cases he : pyEndsWith line "::END\n" = true
      · exact absurd (not_begin_and_end line hbegin he) id
      · simpa using he
    have hbt : (scanLine keys st line).between = true := by
      unfold scanLine
      rw [hm]
      dsimp only
      by_cases hn : n = ""
      · rw [if_neg (by simp [hn])]
        unfold scanRest
        rw [hend, h]
        simpa using h
      · rw [if_pos hn]
        by_cases hc : keys.contains n = true
        · rw [if_pos hc]
        · rw [if_neg hc]
          exact h
    constructor
    · intro hcl
      rw [hbt] at hcl
      exact absurd hcl (by simp)
    · intro hrhs
      rw [hend] at hrhs
      exact absurd hrhs.1 (by simp)
  | none =>
    unfold scanLine
    rw [hm]
    dsimp only
    unfold scanRest
    by_cases he : pyEndsWith line "::END\n" = true
    · rw [he]
      by_cases hs : pyStartsWith line st.closing = true
      · rw [h, hs]
        simp [hs]
      · have hs' : pyStartsWith line st.closing = false := by simpa using hs
        rw [h, hs']
        simp [h, hs']
    · have he' : pyEndsWith line "::END\n" = false := by simpa using he
      rw [he', h]
      simp [h, he']

/-- C2, witness: inside a `// KALAMINE::FOO::...` block, a foreign
`lafayette::END` line does not close the block, while the matching end
marker does. -/
theorem C2_witness :
    (scanLine ["foo"]
        ⟨"", true, true, "// KALAMINE::FOO::END\n"⟩ "lafayette::END\n").between
      = true ∧
    (scanLine ["foo"]
        ⟨"", true, true, "// KALAMINE::FOO::END\n"⟩
        "// KALAMINE::FOO::END\n").between = false := by
  constructor
  · by_cases hcl : (scanLine ["foo"]
        ⟨"", true, true, "// KALAMINE::FOO::END\n"⟩ "lafayette::END\n").between
      = false
    · have := (C2_close_iff ["foo"]
        ⟨"", true, true, "// KALAMINE::FOO::END\n"⟩ "lafayette::END\n" rfl).1 hcl
      exact absurd this.2 (by decide)
    · simpa using hcl
  · exact (C2_close_iff ["foo"]
      ⟨"", true, true, "// KALAMINE::FOO::END\n"⟩
      "// KALAMINE::FOO::END\n" rfl).2 ⟨by decide, by decide⟩

-- ---------------------------------------------------------------------------
-- Claim C3
-- ---------------------------------------------------------------------------

/-- C3, counterexample.  The claim says a line in neither the current
format `// KALAMINE::<NAME>::BEGIN` nor the legacy format
`// LAFAYETTE::BEGIN` is not recognized as a begin marker.  But the code's
fallback branch never checks the legacy prefix: `"xyz::BEGIN\n"` is in
neither format yet is recognized, with name `lafayette`. -/
theorem C3_counterexample :
    is_new_symbol_mark "xyz::BEGIN\n" = some "lafayette" ∧
    pyStartsWith "xyz::BEGIN\n" "// KALAMINE::" = false ∧
    "xyz::BEGIN\n" ≠ LEGACY_MARK.1 := by decide

/-- C3 (amended): `is_new_symbol_mark` recognizes a line as a begin marker
exactly when it ends with `::BEGIN`; a line in the current format yields
the embedded name lower-cased, and *any* other line ending in `::BEGIN` —
including, but not limited to, the legacy `// LAFAYETTE::BEGIN` marker —
yields the fixed name `lafayette`. -/
theorem C3_recognition :
    (∀ line : String, pyEndsWith line "::BEGIN\n" = false →
        is_new_symbol_mark line = none) ∧
    (∀ name : String,
        is_new_symbol_mark ("// KALAMINE::" ++ name ++ "::BEGIN\n")
          = some (pyLower name)) ∧
    is_new_symbol_mark "// LAFAYETTE::BEGIN\n" = some "lafayette" ∧
    (∀ line : String, pyEndsWith line "::BEGIN\n" = true →
        pyStartsWith line "// KALAMINE::" = false →
        is_new_symbol_mark line = some "lafayette") :=
  ⟨mark_none_of_not_begin, mark_of_kalamine_line, by decide, mark_lafayette⟩

/-- C3, witness for the amended theorem at concrete inputs. -/
theorem C3_witness :
    is_new_symbol_mark "xkb_symbols overview\n" = none ∧
    is_new_symbol_mark "// KALAMINE::Ergo-L::BEGIN\n" = some "ergo-l" := by
  constructor
  · exact C3_recognition.1 _ (by decide)
  · have := C3_recognition.2.1 "Ergo-L"
    rw [show ("// KALAMINE::" ++ "Ergo-L" ++ "::BEGIN\n")
        = "// KALAMINE::Ergo-L::BEGIN\n" from by decide] at this
    rw [this]
    decide

-- ---------------------------------------------------------------------------
-- Claim C6
-- ---------------------------------------------------------------------------

/-- C6: a permission-denied error raised while rewriting a file during
commit is propagated to the caller unchanged, while any other I/O failure
is converted into a process-terminating error message, and that message
names the offending path. -/
theorem C6_error_dispatch :
    (∀ path : String,
        exit_FileNotWritable .permissionError path = .reraise .permissionError) ∧
    (∀ msg path : String,
        exit_FileNotWritable (.ioError msg) path
          = .sysExit ("Error: could not write to file " ++ path ++ ".") ∧
        ∀ m : String, exit_FileNotWritable (.ioError msg) path = .sysExit m →
          path.data <:+: m.data) := by
  refine ⟨fun _ => rfl, fun msg path => ⟨rfl, fun m hm => ?_⟩⟩
  have hm' : ExcOutcome.sysExit ("Error: could not write to file " ++ path ++ ".")
      = .sysExit m := hm
  have hmsg : ("Error: could not write to file " ++ path ++ "." : String) = m :=
    ExcOutcome.sysExit.inj hm'
  rw [← hmsg]
  exact ⟨"Error: could not write to file ".data, ".".data, by
    simp [strData_append]⟩

/-- C6, witness at a concrete exception and path. -/
theorem C6_witness :
    exit_FileNotWritable (.ioError "disk full") "/usr/share/X11/xkb/symbols/fr"
      = .sysExit "Error: could not write to file /usr/share/X11/xkb/symbols/fr." ∧
    ("/usr/share/X11/xkb/symbols/fr" : String).data
      <:+: ("Error: could not write to file /usr/share/X11/xkb/symbols/fr." : String).data := by
  constructor
  · exact (C6_error_dispatch.2 "disk full" "/usr/share/X11/xkb/symbols/fr").1
  · exact (C6_error_dispatch.2 "disk full" "/usr/share/X11/xkb/symbols/fr").2 _
      ((C6_error_dispatch.2 "disk full" "/usr/share/X11/xkb/symbols/fr").1)

-- ---------------------------------------------------------------------------
-- Claim C9
-- ---------------------------------------------------------------------------

/-- C9: upserting a variant whose name already exists in the locale's
variant list (remove, then add, as the install branch of `update_rules`
does) removes the existing node(s) and appends a fresh node, so afterwards
the name appears exactly once, carries the new description, and is the last
variant of its locale. -/
theorem C9_upsert_replace_by_append (vl : List RVariant) (name desc : String)
    (h : name ∈ vl.map RVariant.name) :
    (add_rules_variant (remove_rules_variant vl name) name desc).filter
        (fun v => v.name = name) = [⟨name, desc, none⟩] ∧
    (add_rules_variant (remove_rules_variant vl name) name desc).getLast?
      = some ⟨name, desc, none⟩ ∧
    ((add_rules_variant (remove_rules_variant vl name) name desc).map
        RVariant.name).count name = 1 := by
  refine ⟨?_, ?_, ?_⟩
  · unfold add_rules_variant remove_rules_variant
    rw [List.filter_append, List.filter_filter]
    have h1 : vl.filter (fun v => decide (v.name = name) && !decide (v.name = name))
        = [] := by
      apply List.filter_eq_nil_iff.2
      intro a _
      simp
    rw [h1]
    simp
  · unfold add_rules_variant
    exact List.getLast?_concat _
  · unfold add_rules_variant remove_rules_variant
    rw [List.map_append, List.count_append]
    have h0 : ((vl.filter (fun v => !decide (v.name = name))).map RVariant.name).count name = 0 := by
      apply List.count_eq_zero.2
      intro hmem
      rw [List.mem_map] at hmem
      obtain ⟨v, hv, hvn⟩ := hmem
      rw [List.mem_filter] at hv
      rw [hvn] at hv
      simp at hv
    rw [h0]
    simp

/-- C9, witness: re-describing `azerty` in a two-variant list. -/
theorem C9_witness :
    (add_rules_variant
        (remove_rules_variant
          [⟨"azerty", "old", none⟩, ⟨"bepo", "b", none⟩] "azerty")
        "azerty" "new").filter (fun v => v.name = "azerty")
      = [⟨"azerty", "new", none⟩] ∧
    (add_rules_variant
        (remove_rules_variant
          [⟨"azerty", "old", none⟩, ⟨"bepo", "b", none⟩] "azerty")
        "azerty" "new").getLast? = some ⟨"azerty", "new", none⟩ ∧
    ((add_rules_variant
        (remove_rules_variant
          [⟨"azerty", "old", none⟩, ⟨"bepo", "b", none⟩] "azerty")
        "azerty" "new").map RVariant.name).count "azerty" = 1 :=
  C9_upsert_replace_by_append
    [⟨"azerty", "old", none⟩, ⟨"bepo", "b", none⟩] "azerty" "new" (by decide)

-- ---------------------------------------------------------------------------
-- Claim C10
-- ---------------------------------------------------------------------------

/-- C10: `XKBManager.clean` leaves the on-disk state unchanged (the source
parses the rules shards and mutates only the in-memory trees, and contains
no write call), and in the in-memory trees it produces every variant's
`type` attribute has been dropped. -/
theorem C10_clean_reads_only (s : DiskState) :
    (XKBManager_clean s).1 = s ∧
    ∀ t ∈ (XKBManager_clean s).2, ∀ lay ∈ t.layouts, ∀ v ∈ lay.variants,
      v.vtype = none := by
  refine ⟨rfl, ?_⟩
  intro t ht lay hlay v hv
  unfold XKBManager_clean at ht
  simp only at ht
  rw [List.mem_map] at ht
  obtain ⟨t0, _, hct⟩ := ht
  rw [← hct] at hlay
  unfold clean_tree at hlay
  simp only at hlay
  rw [List.mem_map] at hlay
  obtain ⟨lay0, _, hcl⟩ := hlay
  rw [← hcl] at hv
  simp only at hv
  rw [List.mem_map] at hv
  obtain ⟨v0, _, hcv⟩ := hv
  rw [← hcv]

/-- C10, witness at a concrete state with a legacy `type` attribute. -/
theorem C10_witness :
    (XKBManager_clean
        ⟨none,
         some ⟨"raw", ⟨[⟨"fr", [⟨"lafayette", "French (Lafayette)", some "lafayette"⟩]⟩]⟩⟩,
         fun _ => none⟩).1
      = ⟨none,
         some ⟨"raw", ⟨[⟨"fr", [⟨"lafayette", "French (Lafayette)", some "lafayette"⟩]⟩]⟩⟩,
         fun _ => none⟩ ∧
    (⟨"lafayette", "French (Lafayette)", none⟩ : RVariant).vtype = none :=
  ⟨(C10_clean_reads_only _).1,
   (C10_clean_reads_only
      ⟨none,
       some ⟨"raw", ⟨[⟨"fr", [⟨"lafayette", "French (Lafayette)", some "lafayette"⟩]⟩]⟩⟩,
       fun _ => none⟩).2
     ⟨[⟨"fr", [⟨"lafayette", "French (Lafayette)", none⟩]⟩]⟩ (by decide)
     ⟨"fr", [⟨"lafayette", "French (Lafayette)", none⟩]⟩ (by decide)
     ⟨"lafayette", "French (Lafayette)", none⟩ (by decide)⟩

-- ---------------------------------------------------------------------------
-- Claim C5
-- ---------------------------------------------------------------------------

/-- C5, counterexample.  The claim says committing an empty Index leaves
every Metadata Tree shard file byte-for-byte unchanged (written back only
when touched).  But `update_rules` re-serializes every existing shard
unconditionally: on a shard whose bytes are not in lxml's canonical
pretty-printed form (here: no XML declaration, no indentation) the bytes
change even though the index is empty. -/
theorem C5_counterexample :
    (XKBManager_update
        ⟨none,
         some ⟨"<xkbConfigRegistry><layoutList/></xkbConfigRegistry>", ⟨[]⟩⟩,
         fun _ => none⟩ []).evdev
      ≠ some ⟨"<xkbConfigRegistry><layoutList/></xkbConfigRegistry>", ⟨[]⟩⟩ := by
  decide

/-- C5 (amended): committing an empty Index leaves every Definitions Store
file unchanged and performs no tree mutation, but every *existing* Metadata
Tree shard file is unconditionally written back in serialized form (its
bytes change unless they were already canonical); missing shard files stay
missing. -/
theorem C5_empty_commit (s : DiskState) :
    (XKBManager_update s []).symbols = s.symbols ∧
    (∀ sf : ShardFile, s.base = some sf →
        (XKBManager_update s []).base = some ⟨serializeRegistry sf.tree, sf.tree⟩) ∧
    (∀ sf : ShardFile, s.evdev = some sf →
        (XKBManager_update s []).evdev = some ⟨serializeRegistry sf.tree, sf.tree⟩) ∧
    (s.base = none → (XKBManager_update s []).base = none) ∧
    (s.evdev = none → (XKBManager_update s []).evdev = none) := by
  refine ⟨rfl, ?_, ?_, ?_, ?_⟩
  · intro sf hsf
    show (s.base.map (fun sf => update_rules_shard sf [])) = _
    rw [hsf]
    rfl
  · intro sf hsf
    show (s.evdev.map (fun sf => update_rules_shard sf [])) = _
    rw [hsf]
    rfl
  · intro hb
    show (s.base.map (fun sf => update_rules_shard sf [])) = none
    rw [hb]
    rfl
  · intro hb
    show (s.evdev.map (fun sf => update_rules_shard sf [])) = none
    rw [hb]
    rfl

/-- C5, witness at a concrete state. -/
theorem C5_witness :
    (XKBManager_update
        ⟨some ⟨"<xkbConfigRegistry><layoutList/></xkbConfigRegistry>", ⟨[]⟩⟩,
         none, fun _ => none⟩ []).symbols
      = (fun _ => none : SymStore) ∧
    (XKBManager_update
        ⟨some ⟨"<xkbConfigRegistry><layoutList/></xkbConfigRegistry>", ⟨[]⟩⟩,
         none, fun _ => none⟩ []).base
      = some ⟨serializeRegistry ⟨[]⟩, ⟨[]⟩⟩ ∧
    (XKBManager_update
        ⟨some ⟨"<xkbConfigRegistry><layoutList/></xkbConfigRegistry>", ⟨[]⟩⟩,
         none, fun _ => none⟩ []).evdev = none :=
  ⟨(C5_empty_commit _).1,
   (C5_empty_commit _).2.1 ⟨"<xkbConfigRegistry><layoutList/></xkbConfigRegistry>", ⟨[]⟩⟩ rfl,
   (C5_empty_commit _).2.2.2.2 rfl⟩

-- ---------------------------------------------------------------------------
-- Normal form of the metadata variant operations (towards C4)
-- ---------------------------------------------------------------------------

/-- The names touched by a variant mapping. -/
def opsNames (ops : VariantMap) : List String := ops.map Prod.fst

/-- The variant nodes a mapping installs, in mapping order. -/
def opsNew (ops : VariantMap) : List RVariant :=
  ops.filterMap
    (fun p => p.2.map (fun layout => ⟨p.1, layout.description, none⟩))

theorem mem_opsNew_name (ops : VariantMap) (v : RVariant) (h : v ∈ opsNew ops) :
    v.name ∈ opsNames ops := by
  unfold opsNew at h
  rw [List.mem_filterMap] at h
  obtain ⟨p, hp, hfp⟩ := h
  cases h2 : p.2 with
  | none => rw [h2] at hfp; exact absurd hfp (by simp)
  | some layout =>
    rw [h2] at hfp
    simp only [Option.map_some'] at hfp
    have : (⟨p.1, layout.description, none⟩ : RVariant) = v := Option.some.inj hfp
    have hn : v.name = p.1 := by rw [← this]
    rw [hn]
    exact List.mem_map_of_mem Prod.fst hp

theorem applyVariantOps_normal (ops : VariantMap) :
    (opsNames ops).Nodup →
    ∀ vl : List RVariant,
      applyVariantOps vl ops
        = vl.filter (fun v => !(opsNames ops).contains v.name) ++ opsNew ops := by
  induction ops with
  | nil =>
    intro _ vl
    show vl = vl.filter (fun _ => !List.contains [] _) ++ []
    simp [List.contains]
  | cons q rest ih =>
    intro hnd vl
    have hndr : (opsNames rest).Nodup := by
      have := hnd
      rw [show opsNames (q :: rest) = q.1 :: opsNames rest from rfl] at this
      exact (List.nodup_cons.1 this).2
    have hq : q.1 ∉ opsNames rest := by
      have := hnd
      rw [show opsNames (q :: rest) = q.1 :: opsNames rest from rfl] at this
      exact (List.nodup_cons.1 this).1
    show applyVariantOps (applyVariantOp vl q) rest = _
    rw [ih hndr]
    cases h2 : q.2 with
    | none =>
      have hop : applyVariantOp vl q = vl.filter (fun v => !decide (v.name = q.1)) := by
        unfold applyVariantOp remove_rules_variant
        rw [h2]
      rw [hop, List.filter_filter]
      have hnew : opsNew (q :: rest) = opsNew rest := by
        unfold opsNew
        rw [List.filterMap_cons, h2]
        rfl
      rw [hnew]
      congr 1
      apply List.filter_congr
      intro v _
      show (!(opsNames rest).contains v.name && !decide (v.name = q.1))
          = !(opsNames (q :: rest)).contains v.name
      rw [show opsNames (q :: rest) = q.1 :: opsNames rest from rfl]
      rw [show (q.1 :: opsNames rest).contains v.name
          = (v.name == q.1 || (opsNames rest).contains v.name) from rfl]
      rw [Bool.not_or]
      rw [Bool.and_comm]
      rfl
    | some layout =>
      have hop : applyVariantOp vl q
          = vl.filter (fun v => !decide (v.name = q.1))
            ++ [⟨q.1, layout.description, none⟩] := by
        unfold applyVariantOp remove_rules_variant add_rules_variant
        rw [h2]
      rw [hop, List.filter_append, List.filter_filter]
      have hkeep : List.filter (fun v => !(opsNames rest).contains v.name)
          [(⟨q.1, layout.description, none⟩ : RVariant)]
          = [⟨q.1, layout.description, none⟩] := by
        simp [List.filter, hq]
      rw [hkeep]
      have hnew : opsNew (q :: rest)
          = ⟨q.1, layout.description, none⟩ :: opsNew rest := by
        unfold opsNew
        rw [List.filterMap_cons, h2]
        rfl
      rw [hnew, List.append_assoc]
      congr 1
      apply List.filter_congr
      intro v _
      show (!(opsNames rest).contains v.name && !decide (v.name = q.1))
          = !(opsNames (q :: rest)).contains v.name
      rw [show opsNames (q :: rest) = q.1 :: opsNames rest from rfl]
      rw [show (q.1 :: opsNames rest).contains v.name
          = (v.name == q.1 || (opsNames rest).contains v.name) from rfl]
      rw [Bool.not_or]
      rw [Bool.and_comm]
      rfl

theorem applyVariantOps_idem (ops : VariantMap) (hnd : (opsNames ops).Nodup)
    (vl : List RVariant) :
    applyVariantOps (applyVariantOps vl ops) ops = applyVariantOps vl ops := by
  rw [applyVariantOps_normal ops hnd vl, applyVariantOps_normal ops hnd]
  congr 1
  rw [List.filter_append, List.filter_filter]
  have h1 : List.filter (fun v => !(opsNames ops).contains v.name) (opsNew ops)
      = [] := by
    apply List.filter_eq_nil_iff.2
    intro v hv
    have := mem_opsNew_name ops v hv
    simpa using this
  rw [h1, List.append_nil]
  apply List.filter_congr
  intro v _
  rw [Bool.and_self]

-- ---------------------------------------------------------------------------
-- Tree-level lemmas for update_rules (towards C4)
-- ---------------------------------------------------------------------------

/-- The layout nodes of a tree carrying a given locale name, in document
order. -/
def layoutsFor (t : RegistryTree) (loc : String) : List RLayout :=
  t.layouts.filter (fun l => l.locale = loc)

theorem filter_locale_cons_pos (x : RLayout) (xs : List RLayout) (loc : String)
    (h : x.locale = loc) :
    (x :: xs).filter (fun l => l.locale = loc)
      = x :: xs.filter (fun l => l.locale = loc) :=
  List.filter_cons_of_pos (by simpa using h)

theorem filter_locale_cons_neg (x : RLayout) (xs : List RLayout) (loc : String)
    (h : ¬(x.locale = loc)) :
    (x :: xs).filter (fun l => l.locale = loc)
      = xs.filter (fun l => l.locale = loc) :=
  List.filter_cons_of_neg (by simpa using h)

theorem modifyFirstLayout_filter_ne (ls : List RLayout) (loc loc' : String)
    (f : List RVariant → List RVariant) (h : loc ≠ loc') :
    (modifyFirstLayout ls loc' f).filter (fun l => l.locale = loc)
      = ls.filter (fun l => l.locale = loc) := by
  induction ls with
  | nil => rfl
  | cons l rest ih =>
    unfold modifyFirstLayout
    by_cases hl : l.locale = loc'
    · rw [if_pos hl]
      have hne2 : ¬(l.locale = loc) := by
        rw [hl]
        exact fun hc => h hc.symm
      rw [filter_locale_cons_neg { l with variants := f l.variants } rest loc hne2,
        filter_locale_cons_neg l rest loc hne2]
    · rw [if_neg hl]
      by_cases hk : l.locale = loc
      · rw [filter_locale_cons_pos l _ loc hk, filter_locale_cons_pos l rest loc hk, ih]
      · rw [filter_locale_cons_neg l _ loc hk, filter_locale_cons_neg l rest loc hk, ih]

theorem layoutsFor_update_ne (t : RegistryTree) (loc loc' : String)
    (ops : VariantMap) (h : loc ≠ loc') :
    layoutsFor (update_rules_locale t loc' ops) loc = layoutsFor t loc := by
  unfold update_rules_locale layoutsFor
  rw [modifyFirstLayout_filter_ne _ loc loc' _ h]
  unfold get_rules_locale
  split
  · rw [List.filter_append]
    rw [filter_locale_cons_neg ⟨loc', []⟩ [] loc (fun hc => h hc.symm)]
    simp
  · rfl

theorem modifyFirstLayout_found (ls : List RLayout) (loc : String)
    (f : List RVariant → List RVariant) (l0 : RLayout)
    (h : ls.filter (fun l => l.locale = loc) = [l0]) :
    (modifyFirstLayout ls loc f).filter (fun l => l.locale = loc)
      = [{ l0 with variants := f l0.variants }] := by
  induction ls with
  | nil => exact absurd h (by simp)
  | cons l rest ih =>
    unfold modifyFirstLayout
    by_cases hl : l.locale = loc
    · rw [if_pos hl]
      rw [filter_locale_cons_pos l rest loc hl] at h
      have hle := List.cons.inj h
      rw [filter_locale_cons_pos { l with variants := f l.variants } _ loc hl]
      rw [hle.1, hle.2]
    · rw [if_neg hl]
      rw [filter_locale_cons_neg l rest loc hl] at h
      rw [filter_locale_cons_neg l _ loc hl]
      exact ih h

theorem modifyFirstLayout_none (ls : List RLayout) (loc : String)
    (f : List RVariant → List RVariant)
    (h : ls.filter (fun l => l.locale = loc) = []) :
    modifyFirstLayout (ls ++ [⟨loc, []⟩]) loc f = ls ++ [⟨loc, f []⟩] := by
  induction ls with
  | nil =>
    unfold modifyFirstLayout
    simp
  | cons l rest ih =>
    by_cases hl : l.locale = loc
    · rw [filter_locale_cons_pos l rest loc hl] at h
      exact absurd h (by simp)
    · rw [filter_locale_cons_neg l rest loc hl] at h
      show modifyFirstLayout (l :: (rest ++ [⟨loc, []⟩])) loc f = _
      unfold modifyFirstLayout
      rw [if_neg hl, ih h]
      rfl

theorem modifyFirstLayout_fixed (ls : List RLayout) (loc : String)
    (f : List RVariant → List RVariant) (vl : List RVariant)
    (h : ls.filter (fun l => l.locale = loc) = [⟨loc, vl⟩]) (hf : f vl = vl) :
    modifyFirstLayout ls loc f = ls := by
  induction ls with
  | nil => rfl
  | cons l rest ih =>
    unfold modifyFirstLayout
    by_cases hl : l.locale = loc
    · rw [if_pos hl]
      rw [filter_locale_cons_pos l rest loc hl] at h
      have hle := List.cons.inj h
      rw [hle.1, hf]
    · rw [if_neg hl]
      rw [filter_locale_cons_neg l rest loc hl] at h
      rw [ih h]

theorem layoutsFor_update_self (t : RegistryTree) (loc : String)
    (ops : VariantMap) (hcount : (layoutsFor t loc).length ≤ 1) :
    ∃ vb : List RVariant,
      layoutsFor (update_rules_locale t loc ops) loc
        = [⟨loc, applyVariantOps vb ops⟩] := by
  unfold update_rules_locale
  cases hfl : layoutsFor t loc with
  | nil =>
    refine ⟨[], ?_⟩
    have hfl' : t.layouts.filter (fun l => l.locale = loc) = [] := hfl
    have hglen : (t.layouts.filter (fun l => decide (l.locale = loc))).length ≠ 1 := by
      rw [hfl']
      simp
    unfold get_rules_locale
    rw [if_pos hglen]
    unfold layoutsFor
    dsimp only
    rw [modifyFirstLayout_none t.layouts loc _ hfl']
    rw [List.filter_append, hfl']
    rw [filter_locale_cons_pos ⟨loc, applyVariantOps [] ops⟩ [] loc rfl]
    rfl
  | cons l0 rest0 =>
    have hr0 : rest0 = [] := by
      rw [hfl] at hcount
      cases rest0 with
      | nil => rfl
      | cons a b => exact absurd hcount (by simp)
    subst hr0
    have hl0mem : l0 ∈ t.layouts.filter (fun l => l.locale = loc) := by
      have : l0 ∈ layoutsFor t loc := by rw [hfl]; simp
      exact this
    have hl0loc : l0.locale = loc := by
      have := (List.mem_filter.1 hl0mem).2
      simpa using this
    refine ⟨l0.variants, ?_⟩
    have hfl' : t.layouts.filter (fun l => l.locale = loc) = [l0] := hfl
    have hg : get_rules_locale t loc = t := by
      unfold get_rules_locale
      rw [if_neg]
      rw [hfl']
      simp
    rw [hg]
    unfold layoutsFor
    dsimp only
    rw [modifyFirstLayout_found t.layouts loc _ l0 hfl']
    have : ({ l0 with variants := applyVariantOps l0.variants ops } : RLayout)
        = ⟨loc, applyVariantOps l0.variants ops⟩ := by
      rw [show ({ l0 with variants := applyVariantOps l0.variants ops } : RLayout)
          = ⟨l0.locale, applyVariantOps l0.variants ops⟩ from rfl, hl0loc]
    rw [this]

theorem update_rules_locale_fixed (t : RegistryTree) (loc : String)
    (ops : VariantMap) (vl : List RVariant)
    (h : layoutsFor t loc = [⟨loc, vl⟩])
    (hf : applyVariantOps vl ops = vl) :
    update_rules_locale t loc ops = t := by
  have h' : t.layouts.filter (fun l => l.locale = loc) = [⟨loc, vl⟩] := h
  unfold update_rules_locale
  have hg : get_rules_locale t loc = t := by
    unfold get_rules_locale
    rw [if_neg]
    rw [h']
    simp
  rw [hg]
  show RegistryTree.mk
      (modifyFirstLayout t.layouts loc (fun vl => applyVariantOps vl ops)) = t
  rw [modifyFirstLayout_fixed t.layouts loc _ vl h' hf]

theorem layoutsFor_update_tree_ne (idx : KbIndex) (loc : String)
    (h : loc ∉ idx.map Prod.fst) :
    ∀ t : RegistryTree,
      layoutsFor (update_rules_tree t idx) loc = layoutsFor t loc := by
  induction idx with
  | nil => intro t; rfl
  | cons q rest ih =>
    intro t
    have hq : loc ≠ q.1 := by
      intro he
      exact h (by rw [he]; simp)
    have hr : loc ∉ rest.map Prod.fst := by
      intro hm
      exact h (by simp [hm])
    show layoutsFor (update_rules_tree (update_rules_locale t q.1 q.2) rest) loc = _
    rw [ih hr, layoutsFor_update_ne t loc q.1 q.2 hq]

theorem update_rules_tree_normal (idx : KbIndex) :
    (idx.map Prod.fst).Nodup →
    ∀ t : RegistryTree, (∀ p ∈ idx, (layoutsFor t p.1).length ≤ 1) →
    ∀ p ∈ idx, ∃ vb : List RVariant,
      layoutsFor (update_rules_tree t idx) p.1
        = [⟨p.1, applyVariantOps vb p.2⟩] := by
  induction idx with
  | nil => intro _ t _ p hp; exact absurd hp (by simp)
  | cons q rest ih =>
    intro hnd t hcount p hp
    have hq : q.1 ∉ rest.map Prod.fst := (List.nodup_cons.1 hnd).1
    rcases List.mem_cons.1 hp with hpq | hpr
    · obtain ⟨vb, hvb⟩ := layoutsFor_update_self t q.1 q.2 (hcount q (by simp))
      refine ⟨vb, ?_⟩
      show layoutsFor (update_rules_tree (update_rules_locale t q.1 q.2) rest) p.1 = _
      rw [hpq]
      rw [layoutsFor_update_tree_ne rest q.1 hq _, hvb]
    · have hne : p.1 ≠ q.1 := by
        intro he
        exact hq (by rw [← he]; exact List.mem_map_of_mem Prod.fst hpr)
      show ∃ vb, layoutsFor (update_rules_tree (update_rules_locale t q.1 q.2) rest) p.1 = _
      apply ih (List.nodup_cons.1 hnd).2 (update_rules_locale t q.1 q.2) ?_ p hpr
      intro r hr
      have hrne : r.1 ≠ q.1 := by
        intro he
        exact hq (by rw [← he]; exact List.mem_map_of_mem Prod.fst hr)
      rw [layoutsFor_update_ne t r.1 q.1 q.2 hrne]
      exact hcount r (by simp [hr])

theorem update_rules_tree_fixed (idx : KbIndex) :
    ∀ t : RegistryTree,
      (∀ p ∈ idx, ∃ vl : List RVariant,
        layoutsFor t p.1 = [⟨p.1, vl⟩] ∧ applyVariantOps vl p.2 = vl) →
      update_rules_tree t idx = t := by
  induction idx with
  | nil => intro t _; rfl
  | cons q rest ih =>
    intro t hfix
    obtain ⟨vl, h1, h2⟩ := hfix q (by simp)
    show update_rules_tree (update_rules_locale t q.1 q.2) rest = t
    rw [update_rules_locale_fixed t q.1 q.2 vl h1 h2]
    exact ih t (fun p hp => hfix p (by simp [hp]))

/-- Re-applying the whole index to a rules tree a second time is the
identity, provided locales are unique in the index, variant names are
unique per locale, and the starting tree has at most one layout node per
index locale. -/
theorem update_rules_tree_idem (idx : KbIndex) (t : RegistryTree)
    (hnd : (idx.map Prod.fst).Nodup)
    (hops : ∀ p ∈ idx, (opsNames p.2).Nodup)
    (hcount : ∀ p ∈ idx, (layoutsFor t p.1).length ≤ 1) :
    update_rules_tree (update_rules_tree t idx) idx
      = update_rules_tree t idx := by
  apply update_rules_tree_fixed
  intro p hp
  obtain ⟨vb, hvb⟩ := update_rules_tree_normal idx hnd t hcount p hp
  exact ⟨applyVariantOps vb p.2, hvb, applyVariantOps_idem p.2 (hops p hp) vb⟩

-- ---------------------------------------------------------------------------
-- Symbols-store fold lemmas (towards C4)
-- ---------------------------------------------------------------------------

theorem updateSymStep_ne (st : SymStore) (p : String × VariantMap)
    (l : String) (h : l ≠ p.1) : updateSymStep st p l = st l := by
  unfold updateSymStep
  simp [h]

theorem updateSymStep_eq (st : SymStore) (p : String × VariantMap) :
    updateSymStep st p p.1
      = some (update_symbols_locale
          ((st p.1).getD "// Generated by Kalamine") p.2) := by
  unfold updateSymStep
  simp

theorem update_symbols_notin (idx : KbIndex) (loc : String)
    (h : loc ∉ idx.map Prod.fst) :
    ∀ store : SymStore, update_symbols store idx loc = store loc := by
  induction idx with
  | nil => intro store; rfl
  | cons p rest ih =>
    intro store
    have hp : loc ≠ p.1 := fun he => h (by rw [he]; simp)
    have hr : loc ∉ rest.map Prod.fst := fun hm => h (by simp [hm])
    show update_symbols (updateSymStep store p) rest loc = store loc
    rw [ih hr, updateSymStep_ne store p loc hp]

theorem update_symbols_mem (idx : KbIndex) (hnd : (idx.map Prod.fst).Nodup)
    (q : String × VariantMap) (hq : q ∈ idx) :
    ∀ store : SymStore,
      update_symbols store idx q.1
        = some (update_symbols_locale
            ((store q.1).getD "// Generated by Kalamine") q.2) := by
  induction idx with
  | nil => exact absurd hq (by simp)
  | cons p rest ih =>
    intro store
    have hp1 : p.1 ∉ rest.map Prod.fst := (List.nodup_cons.1 hnd).1
    rcases List.mem_cons.1 hq with hqp | hqr
    · show update_symbols (updateSymStep store p) rest q.1 = _
      rw [hqp]
      rw [update_symbols_notin rest p.1 hp1, updateSymStep_eq store p]
    · have hne : q.1 ≠ p.1 := by
        intro he
        exact hp1 (by rw [← he]; exact List.mem_map_of_mem Prod.fst hqr)
      show update_symbols (updateSymStep store p) rest q.1 = _
      rw [ih (List.nodup_cons.1 hnd).2 hqr, updateSymStep_ne store p q.1 hne]

/-- Re-running the symbols pass with the same index is pointwise the
identity, under the cleanliness assumptions of
`update_symbols_locale_idem` for every locale of the index. -/
theorem update_symbols_idem (store : SymStore) (idx : KbIndex)
    (hnd : (idx.map Prod.fst).Nodup)
    (hsym : ∀ p ∈ idx, ∃ c, store p.1 = some c ∧ c = pyRstrip c ++ "\n" ∧
        ∀ l ∈ lineSplitS c, dropsLine (variantKeys p.2) l = false)
    (hw : ∀ p ∈ idx, ∀ q ∈ installs p.2, wfInstall q) :
    update_symbols (update_symbols store idx) idx
      = update_symbols store idx := by
  funext loc
  by_cases hmem : loc ∈ idx.map Prod.fst
  · rw [List.mem_map] at hmem
    obtain ⟨q, hq, hq1⟩ := hmem
    obtain ⟨c, hc1, hc2, hc3⟩ := hsym q hq
    rw [← hq1]
    rw [update_symbols_mem idx hnd q hq (update_symbols store idx)]
    rw [update_symbols_mem idx hnd q hq store]
    rw [hc1]
    show some (update_symbols_locale
        ((some (update_symbols_locale c q.2)).getD "// Generated by Kalamine") q.2) = _
    rw [show (some (update_symbols_locale c q.2)).getD "// Generated by Kalamine"
        = update_symbols_locale c q.2 from rfl]
    rw [update_symbols_locale_idem c q.2 hc2 hc3 (hw q hq)]
    rfl
  · rw [update_symbols_notin idx loc hmem, update_symbols_notin idx loc hmem]

-- ---------------------------------------------------------------------------
-- Claim C4
-- ---------------------------------------------------------------------------

/-- C4, counterexample.  Starting from an empty disk state, committing an
index that installs one layout twice is *not* byte-for-byte the same as
committing it once: the file created on the first commit
(`"// Generated by Kalamine"`, no trailing newline) is not in the
right-stripped newline-terminated shape the rewrite pass produces, so the
second commit inserts an extra blank line before the block. -/
theorem C4_counterexample :
    XKBManager_update
        (XKBManager_update ⟨none, none, fun _ => none⟩
          [("fr", [("foo", some ⟨"desc", "xkb\n"⟩)])])
        [("fr", [("foo", some ⟨"desc", "xkb\n"⟩)])]
      ≠ XKBManager_update ⟨none, none, fun _ => none⟩
          [("fr", [("foo", some ⟨"desc", "xkb\n"⟩)])] := by
  intro h
  have h2 := congrArg (fun st : DiskState => st.symbols "fr") h
  simp only at h2
  exact absurd h2 (by decide)

/-- C4 (amended): committing the same Index twice produces on-disk contents
identical to committing it once, provided the starting state is clean: the
index has no duplicate locales and no duplicate variant names per locale,
each existing rules shard has at most one layout node per index locale,
each index locale's symbols file exists, ends in exactly one newline with
no other trailing whitespace, and contains no begin marker recognized under
an index key, and every installed entry has a lower-case-normal newline-free
name and a body whose processed lines end in neither `::BEGIN` nor `::END`.
(The counterexample shows the claim fails without these conditions, e.g.
when the first commit has to create the symbols file.) -/
theorem C4_commit_twice (s : DiskState) (idx : KbIndex)
    (hnd : (idx.map Prod.fst).Nodup)
    (hops : ∀ p ∈ idx, (opsNames p.2).Nodup)
    (hbase : ∀ sf : ShardFile, s.base = some sf →
        ∀ p ∈ idx, (layoutsFor sf.tree p.1).length ≤ 1)
    (hevdev : ∀ sf : ShardFile, s.evdev = some sf →
        ∀ p ∈ idx, (layoutsFor sf.tree p.1).length ≤ 1)
    (hsym : ∀ p ∈ idx, ∃ c, s.symbols p.1 = some c ∧ c = pyRstrip c ++ "\n" ∧
        ∀ l ∈ lineSplitS c, dropsLine (variantKeys p.2) l = false)
    (hw : ∀ p ∈ idx, ∀ q ∈ installs p.2, wfInstall q) :
    XKBManager_update (XKBManager_update s idx) idx
      = XKBManager_update s idx := by
  have hbase' :
      (s.base.map (fun sf => update_rules_shard sf idx)).map
          (fun sf => update_rules_shard sf idx)
        = s.base.map (fun sf => update_rules_shard sf idx) := by
    cases hb : s.base with
    | none => rfl
    | some sf =>
      show some (update_rules_shard (update_rules_shard sf idx) idx) = _
      unfold update_rules_shard
      rw [update_rules_tree_idem idx sf.tree hnd hops (hbase sf hb)]
      rfl
  have hevdev' :
      (s.evdev.map (fun sf => update_rules_shard sf idx)).map
          (fun sf => update_rules_shard sf idx)
        = s.evdev.map (fun sf => update_rules_shard sf idx) := by
    cases hb : s.evdev with
    | none => rfl
    | some sf =>
      show some (update_rules_shard (update_rules_shard sf idx) idx) = _
      unfold update_rules_shard
      rw [update_rules_tree_idem idx sf.tree hnd hops (hevdev sf hb)]
      rfl
  have hsym' := update_symbols_idem s.symbols idx hnd hsym hw
  show DiskState.mk
      ((s.base.map (fun sf => update_rules_shard sf idx)).map
        (fun sf => update_rules_shard sf idx))
      ((s.evdev.map (fun sf => update_rules_shard sf idx)).map
        (fun sf => update_rules_shard sf idx))
      (update_symbols (update_symbols s.symbols idx) idx)
    = DiskState.mk (s.base.map (fun sf => update_rules_shard sf idx))
      (s.evdev.map (fun sf => update_rules_shard sf idx))
      (update_symbols s.symbols idx)
  rw [hbase', hevdev', hsym']

/-- C4, witness at a concrete clean state: one shard file, one symbols
file, one install and one removal. -/
theorem C4_witness :
    XKBManager_update
        (XKBManager_update
          ⟨some ⟨"raw", ⟨[]⟩⟩, none,
           fun l => if l = "fr" then some "// kalamine symbols\n" else none⟩
          [("fr", [("bepo", some ⟨"French (Bepo)", "xkb_symbols stuff\n"⟩),
                   ("old", none)])])
        [("fr", [("bepo", some ⟨"French (Bepo)", "xkb_symbols stuff\n"⟩),
                 ("old", none)])]
      = XKBManager_update
          ⟨some ⟨"raw", ⟨[]⟩⟩, none,
           fun l => if l = "fr" then some "// kalamine symbols\n" else none⟩
          [("fr", [("bepo", some ⟨"French (Bepo)", "xkb_symbols stuff\n"⟩),
                   ("old", none)])] := by
  apply C4_commit_twice
  · decide
  · decide
  · intro sf hsf
    have hs := Option.some.inj hsf
    subst hs
    decide
  · intro sf hsf
    cases hsf
  · intro p hp
    have hp' : p = ("fr", [("bepo", some ⟨"French (Bepo)", "xkb_symbols stuff\n"⟩),
        ("old", none)]) := by
      simpa using hp
    subst hp'
    exact ⟨"// kalamine symbols\n", rfl, by decide, by decide⟩
  · decide

-- ---------------------------------------------------------------------------
-- Association-list and listing lemmas (towards C7/C8)
-- ---------------------------------------------------------------------------

theorem alGet_alSet {α : Type} (l : List (String × α)) (k k' : String) (v : α) :
    alGet (alSet l k v) k' = if k' = k then some v else alGet l k' := by
  induction l with
  | nil =>
    show alGet [(k, v)] k' = _
    unfold alGet
    by_cases h : k' = k
    · rw [if_pos (show (k, v).1 = k' from h.symm), if_pos h]
    · rw [if_neg (show ¬((k, v).1 = k') from fun hc => h hc.symm), if_neg h]
      rfl
  | cons p rest ih =>
    unfold alSet
    by_cases hp : p.1 = k
    · rw [if_pos hp]
      unfold alGet
      by_cases h : k' = k
      · rw [if_pos (show (k, v).1 = k' from h.symm), if_pos h]
      · rw [if_neg (show ¬((k, v).1 = k') from fun hc => h hc.symm), if_neg h]
        unfold alGet
        rw [if_neg (show ¬(p.1 = k') from fun hc => h (by rw [← hc, hp]))]
    · rw [if_neg hp]
      show alGet (p :: alSet rest k v) k' = _
      unfold alGet
      by_cases hpk : p.1 = k'
      · rw [if_pos hpk, if_pos hpk]
        rw [if_neg (show ¬(k' = k) from fun hc => hp (by rw [hpk, hc]))]
      · rw [if_neg hpk, if_neg hpk, ih]

theorem memIndexB_idxInsert (idx : ListIndex) (L V d L' V' : String) :
    memIndexB (idxInsert idx L V d) L' V' = true ↔
      (L' = L ∧ V' = V) ∨ memIndexB idx L' V' = true := by
  unfold idxInsert memIndexB
  cases hg : alGet idx L with
  | none =>
    rw [alGet_alSet idx L L' [(V, d)]]
    by_cases hL : L' = L
    · rw [if_pos hL, hL, hg]
      show (alGet [(V, d)] V').isSome = true ↔ _
      unfold alGet
      by_cases hV : V' = V
      · rw [if_pos (show (V, d).1 = V' from hV.symm)]
        simp [hL, hV]
      · rw [if_neg (show ¬((V, d).1 = V') from fun hc => hV hc.symm)]
        simp [hV, alGet]
    · rw [if_neg hL]
      simp [hL]
  | some inner =>
    rw [alGet_alSet idx L L' (alSet inner V d)]
    by_cases hL : L' = L
    · rw [if_pos hL, hL, hg]
      show (alGet (alSet inner V d) V').isSome = true ↔ _
      rw [alGet_alSet inner V V' d]
      by_cases hV : V' = V
      · rw [if_pos hV]
        simp [hL, hV]
      · rw [if_neg hV]
        simp [hV]
    · rw [if_neg hL]
      simp [hL]

/-- Whether a `(locale, variant)` pair is declared in one parsed rules
tree. -/
def declaredIn (t : RegistryTree) (L V : String) : Prop :=
  ∃ lay ∈ t.layouts, lay.locale = L ∧ ∃ v ∈ lay.variants, v.name = V

instance (t : RegistryTree) (L V : String) : Decidable (declaredIn t L V) := by
  unfold declaredIn
  infer_instance

/-- Whether a `(locale, variant)` pair is declared in some existing shard
of the disk state. -/
def declaredOn (s : DiskState) (L V : String) : Prop :=
  (∃ sf : ShardFile, s.base = some sf ∧ declaredIn sf.tree L V) ∨
  (∃ sf : ShardFile, s.evdev = some sf ∧ declaredIn sf.tree L V)

theorem memB_variants_fold (lm vm : String) (lay : RLayout) (L V : String) :
    ∀ (vs : List RVariant) (acc : ListIndex),
      memIndexB (vs.foldl (fun acc v =>
          if (lm = "*" || lm = lay.locale) && (vm = "*" || vm = v.name) then
            idxInsert acc lay.locale v.name v.description
          else acc) acc) L V = true
        ↔ (∃ v ∈ vs, (lm = "*" ∨ lm = lay.locale) ∧ (vm = "*" ∨ vm = v.name) ∧
            lay.locale = L ∧ v.name = V) ∨ memIndexB acc L V = true := by
  intro vs
  induction vs with
  | nil => intro acc; simp
  | cons v rest ih =>
    intro acc
    rw [List.foldl_cons, ih]
    by_cases hc : ((lm = "*" || lm = lay.locale) && (vm = "*" || vm = v.name)) = true
    · rw [if_pos hc]
      simp only [Bool.and_eq_true, Bool.or_eq_true, decide_eq_true_eq] at hc
      rw [memIndexB_idxInsert]
      constructor
      · rintro (⟨w, hw, hprops⟩ | (⟨hL, hV⟩ | hacc))
        · exact Or.inl ⟨w, List.mem_cons_of_mem v hw, hprops⟩
        · exact Or.inl ⟨v, List.mem_cons_self v rest, hc.1, hc.2, hL.symm, hV.symm⟩
        · exact Or.inr hacc
      · rintro (⟨w, hw, hprops⟩ | hacc)
        · rcases List.mem_cons.1 hw with hwv | hwr
          · subst hwv
            exact Or.inr (Or.inl ⟨hprops.2.2.1.symm, hprops.2.2.2.symm⟩)
          · exact Or.inl ⟨w, hwr, hprops⟩
        · exact Or.inr (Or.inr hacc)
    · rw [if_neg hc]
      constructor
      · rintro (⟨w, hw, hprops⟩ | hacc)
        · exact Or.inl ⟨w, List.mem_cons_of_mem v hw, hprops⟩
        · exact Or.inr hacc
      · rintro (⟨w, hw, hprops⟩ | hacc)
        · rcases List.mem_cons.1 hw with hwv | hwr
          · subst hwv
            exact absurd (by
              simp only [Bool.and_eq_true, Bool.or_eq_true, decide_eq_true_eq]
              exact ⟨hprops.1, hprops.2.1⟩) hc
          · exact Or.inl ⟨w, hwr, hprops⟩
        · exact Or.inr hacc

theorem memB_layouts_fold (lm vm L V : String) :
    ∀ (ls : List RLayout) (acc : ListIndex),
      memIndexB (ls.foldl (fun acc lay =>
          lay.variants.foldl (fun acc v =>
            if (lm = "*" || lm = lay.locale) && (vm = "*" || vm = v.name) then
              idxInsert acc lay.locale v.name v.description
            else acc) acc) acc) L V = true
        ↔ (∃ lay ∈ ls, ∃ v ∈ lay.variants,
            (lm = "*" ∨ lm = lay.locale) ∧ (vm = "*" ∨ vm = v.name) ∧
            lay.locale = L ∧ v.name = V) ∨ memIndexB acc L V = true := by
  intro ls
  induction ls with
  | nil => intro acc; simp
  | cons lay rest ih =>
    intro acc
    rw [List.foldl_cons, ih, memB_variants_fold lm vm lay L V]
    constructor
    · rintro (⟨w, hw, v, hv, hprops⟩ | (⟨v, hv, hprops⟩ | hacc))
      · exact Or.inl ⟨w, List.mem_cons_of_mem lay hw, v, hv, hprops⟩
      · exact Or.inl ⟨lay, List.mem_cons_self lay rest, v, hv, hprops⟩
      · exact Or.inr hacc
    · rintro (⟨w, hw, v, hv, hprops⟩ | hacc)
      · rcases List.mem_cons.1 hw with hwl | hwr
        · subst hwl
          exact Or.inr (Or.inl ⟨v, hv, hprops⟩)
        · exact Or.inl ⟨w, hwr, v, hv, hprops⟩
      · exact Or.inr (Or.inr hacc)

theorem memB_list_rules_tree (lm vm : String) (t : RegistryTree)
    (acc : ListIndex) (L V : String) :
    memIndexB (list_rules_tree acc lm vm t) L V = true
      ↔ ((lm = "*" ∨ lm = L) ∧ (vm = "*" ∨ vm = V) ∧ declaredIn t L V)
          ∨ memIndexB acc L V = true := by
  unfold list_rules_tree
  rw [memB_layouts_fold lm vm L V t.layouts acc]
  constructor
  · rintro (⟨lay, hlay, v, hv, m1, m2, hL, hV⟩ | hacc)
    · refine Or.inl ⟨?_, ?_, lay, hlay, hL, v, hv, hV⟩
      · rw [← hL]; exact m1
      · rw [← hV]; exact m2
    · exact Or.inr hacc
  · rintro (⟨m1, m2, lay, hlay, hL, v, hv, hV⟩ | hacc)
    · refine Or.inl ⟨lay, hlay, v, hv, ?_, ?_, hL, hV⟩
      · rw [hL]; exact m1
      · rw [hV]; exact m2
    · exact Or.inr hacc

theorem memB_list_rules (s : DiskState) (mask L V : String) :
    memIndexB (list_rules s mask) L V = true
      ↔ ((maskSplit mask).1 = "*" ∨ (maskSplit mask).1 = L) ∧
        ((maskSplit mask).2 = "*" ∨ (maskSplit mask).2 = V) ∧
        declaredOn s L V := by
  unfold list_rules declaredOn
  cases hb : s.base with
  | none =>
    cases he : s.evdev with
    | none =>
      show memIndexB [] L V = true ↔ _
      simp [memIndexB, alGet, hb, he]
    | some sf =>
      rw [memB_list_rules_tree]
      show _ ∨ memIndexB [] L V = true ↔ _
      simp only [memIndexB, alGet, hb, he]
      constructor
      · rintro (⟨m1, m2, hd⟩ | hfalse)
        · exact ⟨m1, m2, Or.inr ⟨sf, rfl, hd⟩⟩
        · exact absurd hfalse (by simp)
      · rintro ⟨m1, m2, (⟨sf', hsf', _⟩ | ⟨sf', hsf', hd⟩)⟩
        · exact absurd hsf' (by simp)
        · exact Or.inl ⟨m1, m2, by rw [Option.some.inj hsf']; exact hd⟩
  | some sfb =>
    cases he : s.evdev with
    | none =>
      rw [memB_list_rules_tree]
      show _ ∨ memIndexB [] L V = true ↔ _
      simp only [memIndexB, alGet, hb, he]
      constructor
      · rintro (⟨m1, m2, hd⟩ | hfalse)
        · exact ⟨m1, m2, Or.inl ⟨sfb, rfl, hd⟩⟩
        · exact absurd hfalse (by simp)
      · rintro ⟨m1, m2, (⟨sf', hsf', hd⟩ | ⟨sf', hsf', _⟩)⟩
        · exact Or.inl ⟨m1, m2, by rw [Option.some.inj hsf']; exact hd⟩
        · exact absurd hsf' (by simp)
    | some sfe =>
      rw [memB_list_rules_tree, memB_list_rules_tree]
      show _ ∨ (_ ∨ memIndexB [] L V = true) ↔ _
      simp only [memIndexB, alGet, hb, he]
      constructor
      · rintro (⟨m1, m2, hd⟩ | (⟨m1, m2, hd⟩ | hfalse))
        · exact ⟨m1, m2, Or.inr ⟨sfe, rfl, hd⟩⟩
        · exact ⟨m1, m2, Or.inl ⟨sfb, rfl, hd⟩⟩
        · exact absurd hfalse (by simp)
      · rintro ⟨m1, m2, (⟨sf', hsf', hd⟩ | ⟨sf', hsf', hd⟩)⟩
        · exact Or.inr (Or.inl ⟨m1, m2, by rw [Option.some.inj hsf']; exact hd⟩)
        · exact Or.inl ⟨m1, m2, by rw [Option.some.inj hsf']; exact hd⟩

theorem pySplit_foldr_no_sep (sep : Char) (l : List Char) (h : sep ∉ l)
    (y : List Char) (ys : List (List Char)) :
    l.foldr (pySplitStep sep) (y :: ys) = (l ++ y) :: ys := by
  induction l with
  | nil => rfl
  | cons c cs ih =>
    have hc : c ≠ sep := fun hc => h (by simp [hc])
    have hcs : sep ∉ cs := fun hm => h (by simp [hm])
    show pySplitStep sep c (cs.foldr (pySplitStep sep) (y :: ys)) = _
    rw [ih hcs]
    simp [pySplitStep, hc]

theorem pySplitChar_no_sep (sep : Char) (s : String) (h : sep ∉ s.data) :
    pySplitChar sep s = [s] := by
  unfold pySplitChar
  rw [show ([[]] : List (List Char)) = [] :: [] from rfl]
  rw [pySplit_foldr_no_sep sep s.data h [] []]
  rw [List.append_nil]
  rfl

theorem pySplitChar_pair (L V : String) (hL : '/' ∉ L.data)
    (hV : '/' ∉ V.data) :
    pySplitChar '/' (L ++ "/" ++ V) = [L, V] := by
  unfold pySplitChar
  have hd : (L ++ "/" ++ V).data = L.data ++ ('/' :: V.data) := by
    rw [strData_append, strData_append]
    simp
  rw [hd, List.foldr_append]
  have h1 : ('/' :: V.data).foldr (pySplitStep '/') [[]] = [[], V.data] := by
    show pySplitStep '/' '/' (V.data.foldr (pySplitStep '/') [[]]) = _
    rw [show ([[]] : List (List Char)) = [] :: [] from rfl]
    rw [pySplit_foldr_no_sep '/' V.data hV [] [], List.append_nil]
    rfl
  rw [h1, pySplit_foldr_no_sep '/' L.data hL [] [V.data], List.append_nil]
  rfl

theorem slash_mem_mask (L V : String) :
    '/' ∈ (L ++ "/" ++ V).data := by
  rw [strData_append, strData_append]
  simp

theorem maskSplit_pair (L V : String) (hL : '/' ∉ L.data)
    (hV : '/' ∉ V.data) :
    maskSplit (L ++ "/" ++ V) = (L, V) := by
  have hmem := slash_mem_mask L V
  have h1 : ¬(L ++ "/" ++ V = "") := by
    intro he
    rw [he] at hmem
    exact absurd hmem (by decide)
  have h2 : ¬(L ++ "/" ++ V = "*") := by
    intro he
    rw [he] at hmem
    exact absurd hmem (by decide)
  unfold maskSplit
  rw [if_neg (by simp [h1, h2])]
  rw [pySplitChar_pair L V hL hV]

theorem maskSplit_locale (L : String) (hL : '/' ∉ L.data)
    (h1 : L ≠ "") (h2 : L ≠ "*") :
    maskSplit L = (L, "*") := by
  unfold maskSplit
  rw [if_neg (by simp [h1, h2])]
  rw [pySplitChar_no_sep '/' L hL]

theorem maskSplit_empty : maskSplit "" = ("*", "*") := rfl

-- ---------------------------------------------------------------------------
-- Claim C8
-- ---------------------------------------------------------------------------

/-- C8: `listAll` (`list_rules`) with mask `locale/variant` returns exactly
that declared pair; with mask `locale` it returns exactly the declared
variants of that locale; with the empty mask it returns every declared
pair.  (Membership in the result is characterized; `*` masks segments and
embedded slashes are excluded, matching the claim's concrete mask forms.) -/
theorem C8_mask_filtering :
    (∀ (s : DiskState) (L V LQ VQ : String), '/' ∉ L.data → '/' ∉ V.data →
        L ≠ "*" → V ≠ "*" →
        (memIndexB (XKBManager_list_all s (L ++ "/" ++ V)) LQ VQ = true ↔
          LQ = L ∧ VQ = V ∧ declaredOn s L V)) ∧
    (∀ (s : DiskState) (L LQ VQ : String), '/' ∉ L.data → L ≠ "" → L ≠ "*" →
        (memIndexB (XKBManager_list_all s L) LQ VQ = true ↔
          LQ = L ∧ declaredOn s L VQ)) ∧
    (∀ (s : DiskState) (LQ VQ : String),
        memIndexB (XKBManager_list_all s "") LQ VQ = true ↔
          declaredOn s LQ VQ) := by
  refine ⟨?_, ?_, ?_⟩
  · intro s L V LQ VQ hL hV hLs hVs
    unfold XKBManager_list_all
    rw [memB_list_rules s _ LQ VQ, maskSplit_pair L V hL hV]
    constructor
    · rintro ⟨m1, m2, hd⟩
      have hLQ : L = LQ := m1.resolve_left hLs
      have hVQ : V = VQ := m2.resolve_left hVs
      refine ⟨hLQ.symm, hVQ.symm, ?_⟩
      rw [hLQ, hVQ]
      exact hd
    · rintro ⟨h1, h2, hd⟩
      subst h1
      subst h2
      exact ⟨Or.inr rfl, Or.inr rfl, hd⟩
  · intro s L LQ VQ hL h1 h2
    unfold XKBManager_list_all
    rw [memB_list_rules s _ LQ VQ, maskSplit_locale L hL h1 h2]
    constructor
    · rintro ⟨m1, _, hd⟩
      have hLQ : L = LQ := m1.resolve_left h2
      refine ⟨hLQ.symm, ?_⟩
      rw [hLQ]
      exact hd
    · rintro ⟨hq, hd⟩
      subst hq
      exact ⟨Or.inr rfl, Or.inl rfl, hd⟩
  · intro s LQ VQ
    unfold XKBManager_list_all
    rw [memB_list_rules s _ LQ VQ, maskSplit_empty]
    constructor
    · rintro ⟨_, _, hd⟩
      exact hd
    · intro hd
      exact ⟨Or.inl rfl, Or.inl rfl, hd⟩

/-- C8, witness on a concrete two-locale metadata tree: the narrow mask
keeps only `fr/azerty` (and drops `fr/bepo`), the locale mask keeps
`fr/bepo`, and the empty mask keeps `de/neo`. -/
theorem C8_witness :
    memIndexB (XKBManager_list_all
        ⟨some ⟨"raw",
           ⟨[⟨"fr", [⟨"azerty", "d1", none⟩, ⟨"bepo", "d2", none⟩]⟩,
             ⟨"de", [⟨"neo", "d3", none⟩]⟩]⟩⟩, none, fun _ => none⟩
        ("fr" ++ "/" ++ "azerty")) "fr" "azerty" = true ∧
    memIndexB (XKBManager_list_all
        ⟨some ⟨"raw",
           ⟨[⟨"fr", [⟨"azerty", "d1", none⟩, ⟨"bepo", "d2", none⟩]⟩,
             ⟨"de", [⟨"neo", "d3", none⟩]⟩]⟩⟩, none, fun _ => none⟩
        ("fr" ++ "/" ++ "azerty")) "fr" "bepo" = false ∧
    memIndexB (XKBManager_list_all
        ⟨some ⟨"raw",
           ⟨[⟨"fr", [⟨"azerty", "d1", none⟩, ⟨"bepo", "d2", none⟩]⟩,
             ⟨"de", [⟨"neo", "d3", none⟩]⟩]⟩⟩, none, fun _ => none⟩
        "fr") "fr" "bepo" = true ∧
    memIndexB (XKBManager_list_all
        ⟨some ⟨"raw",
           ⟨[⟨"fr", [⟨"azerty", "d1", none⟩, ⟨"bepo", "d2", none⟩]⟩,
             ⟨"de", [⟨"neo", "d3", none⟩]⟩]⟩⟩, none, fun _ => none⟩
        "") "de" "neo" = true := by
  refine ⟨?_, ?_, ?_, ?_⟩
  · exact (C8_mask_filtering.1 _ "fr" "azerty" "fr" "azerty"
      (by decide) (by decide) (by decide) (by decide)).2
      ⟨rfl, rfl, Or.inl ⟨_, rfl, by decide⟩⟩
  · by_cases hc : memIndexB (XKBManager_list_all
        ⟨some ⟨"raw",
           ⟨[⟨"fr", [⟨"azerty", "d1", none⟩, ⟨"bepo", "d2", none⟩]⟩,
             ⟨"de", [⟨"neo", "d3", none⟩]⟩]⟩⟩, none, fun _ => none⟩
        ("fr" ++ "/" ++ "azerty")) "fr" "bepo" = true
    · have := (C8_mask_filtering.1 _ "fr" "azerty" "fr" "bepo"
        (by decide) (by decide) (by decide) (by decide)).1 hc
      exact absurd this.2.1 (by decide)
    · simpa using hc
  · exact (C8_mask_filtering.2.1 _ "fr" "fr" "bepo"
      (by decide) (by decide) (by decide)).2
      ⟨rfl, Or.inl ⟨_, rfl, by decide⟩⟩
  · exact (C8_mask_filtering.2.2 _ "de" "neo").2 (Or.inl ⟨_, rfl, by decide⟩)

-- ---------------------------------------------------------------------------
-- Claim C7
-- ---------------------------------------------------------------------------

theorem memB_scan_fold (loc : String) (variants : List (String × String))
    (L V : String) :
    ∀ (lines : List String) (acc : ListIndex),
      memIndexB (lines.foldl (fun acc line =>
          match is_new_symbol_mark line with
          | none => acc
          | some name =>
            match alGet variants name with
            | some d => idxInsert acc loc name d
            | none => acc) acc) L V = true →
      (L = loc ∧ ∃ line ∈ lines, is_new_symbol_mark line = some V) ∨
        memIndexB acc L V = true := by
  intro lines
  induction lines with
  | nil => intro acc h; exact Or.inr h
  | cons line rest ih =>
    intro acc h
    rw [List.foldl_cons] at h
    rcases ih _ h with ⟨hL, w, hw, hmark⟩ | hstep
    · exact Or.inl ⟨hL, w, List.mem_cons_of_mem line hw, hmark⟩
    · revert hstep
      cases hm : is_new_symbol_mark line with
      | none => intro hstep; exact Or.inr hstep
      | some name =>
        intro hstep
        have hstep' : memIndexB
            (match alGet variants name with
             | some d => idxInsert acc loc name d
             | none => acc) L V = true := hstep
        cases hg : alGet variants name with
        | none =>
          rw [hg] at hstep'
          exact Or.inr hstep'
        | some d =>
          rw [hg] at hstep'
          rcases (memIndexB_idxInsert acc loc name d L V).1 hstep' with ⟨hL, hV⟩ | hacc
          · refine Or.inl ⟨hL, line, List.mem_cons_self line rest, ?_⟩
            rw [hm, hV]
          · exact Or.inr hacc

theorem list_symbols_fold_sound (store : SymStore) (L V : String) :
    ∀ (ps : List (String × List (String × String))) (acc : ListIndex),
      memIndexB (ps.foldl (fun acc p =>
          match store p.1 with
          | none => acc
          | some content => list_symbols_scan acc p.1 p.2 content) acc) L V
        = true →
      (∃ c, store L = some c ∧ V ∈ symbolMarkNames c) ∨
        memIndexB acc L V = true := by
  intro ps
  induction ps with
  | nil => intro acc h; exact Or.inr h
  | cons p rest ih =>
    intro acc h
    rw [List.foldl_cons] at h
    rcases ih _ h with hq | hstep
    · exact Or.inl hq
    · revert hstep
      cases hs : store p.1 with
      | none => intro hstep; exact Or.inr hstep
      | some content =>
        intro hstep
        rcases memB_scan_fold p.1 p.2 L V (lineSplitS content) acc hstep with
          ⟨hL, w, hw, hmark⟩ | hacc
        · refine Or.inl ⟨content, ?_, ?_⟩
          · rw [hL]; exact hs
          · unfold symbolMarkNames
            rw [List.mem_filterMap]
            exact ⟨w, hw, hmark⟩
        · exact Or.inr hacc

theorem list_symbols_sound (store : SymStore) (kb : ListIndex) (L V : String)
    (h : memIndexB (list_symbols store kb) L V = true) :
    ∃ c, store L = some c ∧ V ∈ symbolMarkNames c := by
  unfold list_symbols at h
  rcases list_symbols_fold_sound store L V (sortByKey kb) [] h with hq | hfalse
  · exact hq
  · exact absurd hfalse (by simp [memIndexB, alGet])

theorem alGet_idxInsert_ne (idx : ListIndex) (L V d L' : String)
    (h : L' ≠ L) : alGet (idxInsert idx L V d) L' = alGet idx L' := by
  unfold idxInsert
  cases alGet idx L with
  | none => rw [alGet_alSet idx L L' [(V, d)], if_neg h]
  | some inner => rw [alGet_alSet idx L L' (alSet inner V d), if_neg h]

theorem alGet_scanLines_ne (loc : String) (variants : List (String × String))
    (L : String) (h : L ≠ loc) :
    ∀ (lines : List String) (acc : ListIndex),
      alGet (lines.foldl (fun acc line =>
          match is_new_symbol_mark line with
          | none => acc
          | some name =>
            match alGet variants name with
            | some d => idxInsert acc loc name d
            | none => acc) acc) L = alGet acc L := by
  intro lines
  induction lines with
  | nil => intro acc; rfl
  | cons line rest ih =>
    intro acc
    rw [List.foldl_cons, ih]
    show alGet (match is_new_symbol_mark line with
      | none => acc
      | some name =>
        match alGet variants name with
        | some d => idxInsert acc loc name d
        | none => acc) L = alGet acc L
    cases hm : is_new_symbol_mark line with
    | none => rfl
    | some name =>
      show alGet (match alGet variants name with
        | some d => idxInsert acc loc name d
        | none => acc) L = alGet acc L
      cases hg : alGet variants name with
      | none => rfl
      | some d => exact alGet_idxInsert_ne acc loc name d L h

theorem alGet_scan_ne (loc : String) (variants : List (String × String))
    (content : String) (L : String) (h : L ≠ loc) (acc : ListIndex) :
    alGet (list_symbols_scan acc loc variants content) L = alGet acc L := by
  unfold list_symbols_scan
  exact alGet_scanLines_ne loc variants L h (lineSplitS content) acc

/-- A locale whose symbols file is missing never becomes a key of the
`list_symbols` result: the scan for it is skipped before any insertion, and
scans of other locales only insert under their own key. -/
theorem alGet_list_symbols_none (store : SymStore) (kb : ListIndex)
    (L : String) (hnone : store L = none) :
    alGet (list_symbols store kb) L = none := by
  unfold list_symbols
  suffices haux : ∀ (ps : List (String × List (String × String)))
      (acc : ListIndex),
      alGet (ps.foldl (fun acc p =>
        match store p.1 with
        | none => acc
        | some content => list_symbols_scan acc p.1 p.2 content) acc) L
        = alGet acc L by
    rw [haux (sortByKey kb) []]
    rfl
  intro ps
  induction ps with
  | nil => intro acc; rfl
  | cons p rest ih =>
    intro acc
    rw [List.foldl_cons, ih]
    show alGet (match store p.1 with
      | none => acc
      | some content => list_symbols_scan acc p.1 p.2 content) L = alGet acc L
    cases hs : store p.1 with
    | none => rfl
    | some content =>
      have hne : L ≠ p.1 := by
        intro he
        rw [he, hs] at hnone
        exact absurd hnone (by simp)
      exact alGet_scan_ne p.1 p.2 content L hne acc

/-- C7: a `(locale, variant)` pair declared in the Metadata Tree whose
Definitions Store file contains no begin marker for the variant is present
in `listAll` but absent from `listRegistered` (`list` =
`list_symbols ∘ list_rules`); and a locale with no Definitions Store file
at all is dropped entirely from the `listRegistered` result: its key is
absent (`alGet` yields `none`), not present with an empty variant
mapping. -/
theorem C7_drift (s : DiskState) (mask L V : String) :
    (memIndexB (XKBManager_list_all s mask) L V = true →
      (∀ c, s.symbols L = some c → V ∉ symbolMarkNames c) →
      memIndexB (XKBManager_list_all s mask) L V = true ∧
      memIndexB (XKBManager_list s mask) L V = false) ∧
    (s.symbols L = none →
      alGet (XKBManager_list s mask) L = none) := by
  constructor
  · intro hall hnom
    refine ⟨hall, ?_⟩
    by_cases hc : memIndexB (XKBManager_list s mask) L V = true
    · have hc' : memIndexB (list_symbols s.symbols (list_rules s mask)) L V
          = true := hc
      obtain ⟨c, hc1, hc2⟩ := list_symbols_sound s.symbols (list_rules s mask) L V hc'
      exact absurd hc2 (hnom c hc1)
    · simpa using hc
  · intro hnone
    have h0 : alGet (list_symbols s.symbols (list_rules s mask)) L = none :=
      alGet_list_symbols_none s.symbols (list_rules s mask) L hnone
    exact h0

/-- C7, witness: `fr/azerty` is declared but has no marker block (only
`bepo` does), so it is listed by `listAll` and dropped by `listRegistered`;
locale `de` has no symbols file and is absent as a key of the
`listRegistered` result. -/
theorem C7_witness :
    memIndexB (XKBManager_list_all
        ⟨some ⟨"raw",
           ⟨[⟨"fr", [⟨"azerty", "d1", none⟩, ⟨"bepo", "d2", none⟩]⟩,
             ⟨"de", [⟨"neo", "d3", none⟩]⟩]⟩⟩, none,
         fun l => if l = "fr"
           then some "// KALAMINE::BEPO::BEGIN\nxx\n// KALAMINE::BEPO::END\n"
           else none⟩ "") "fr" "azerty" = true ∧
    memIndexB (XKBManager_list
        ⟨some ⟨"raw",
           ⟨[⟨"fr", [⟨"azerty", "d1", none⟩, ⟨"bepo", "d2", none⟩]⟩,
             ⟨"de", [⟨"neo", "d3", none⟩]⟩]⟩⟩, none,
         fun l => if l = "fr"
           then some "// KALAMINE::BEPO::BEGIN\nxx\n// KALAMINE::BEPO::END\n"
           else none⟩ "") "fr" "azerty" = false ∧
    alGet (XKBManager_list
        ⟨some ⟨"raw",
           ⟨[⟨"fr", [⟨"azerty", "d1", none⟩, ⟨"bepo", "d2", none⟩]⟩,
             ⟨"de", [⟨"neo", "d3", none⟩]⟩]⟩⟩, none,
         fun l => if l = "fr"
           then some "// KALAMINE::BEPO::BEGIN\nxx\n// KALAMINE::BEPO::END\n"
           else none⟩ "") "de" = none := by
  have h1 := (C7_drift
      ⟨some ⟨"raw",
         ⟨[⟨"fr", [⟨"azerty", "d1", none⟩, ⟨"bepo", "d2", none⟩]⟩,
           ⟨"de", [⟨"neo", "d3", none⟩]⟩]⟩⟩, none,
       fun l => if l = "fr"
         then some "// KALAMINE::BEPO::BEGIN\nxx\n// KALAMINE::BEPO::END\n"
         else none⟩ "" "fr" "azerty").1
    (by decide)
    (by
      intro c hcc
      have hc : c = "// KALAMINE::BEPO::BEGIN\nxx\n// KALAMINE::BEPO::END\n" :=
        (Option.some.inj hcc).symm
      subst hc
      decide)
  refine ⟨h1.1, h1.2, ?_⟩
  exact (C7_drift
      ⟨some ⟨"raw",
         ⟨[⟨"fr", [⟨"azerty", "d1", none⟩, ⟨"bepo", "d2", none⟩]⟩,
           ⟨"de", [⟨"neo", "d3", none⟩]⟩]⟩⟩, none,
       fun l => if l = "fr"
         then some "// KALAMINE::BEPO::BEGIN\nxx\n// KALAMINE::BEPO::END\n"
         else none⟩ "" "de" "neo").2 rfl
